import Mathlib

/-!
# Splitwise settlement engine: balances and greedy settlement

Shallow embedding of

* `algorithms/settlement.go`  : `Transaction`, `balance`, `MinimizeTransactions`
* `handlers/settlements.go`   : `computeNetBalances`
* `handlers/expenses.go`      : the split computation of `AddExpense`

Go `int64` values are integers (`Int`) and every Go arithmetic operation that can
leave the `int64` range is followed by `wrap64`, the two's complement reduction.
A Go `map[uint]int64` is the list of its entries (distinct keys); the order of
the list is the order in which `range` enumerates the map.  `sort.Slice` is a
parameter of the embedding, constrained only by its documented contract.
-/

namespace Splitwise

/-! ## 64-bit integers -/

/-- Two's complement reduction of an integer to the `int64` range. -/
def wrap64 (x : Int) : Int := (x + 2 ^ 63) % 2 ^ 64 - 2 ^ 63

/-- The value is representable as an `int64`. -/
def isInt64 (x : Int) : Prop := -2 ^ 63 ≤ x ∧ x < 2 ^ 63

instance (x : Int) : Decidable (isInt64 x) := by
  unfold isInt64; exact inferInstance

/-- The smallest `int64`, `math.MinInt64`. -/
def minInt64 : Int := -2 ^ 63

/-- The largest `int64`, `math.MaxInt64`. -/
def maxInt64 : Int := 2 ^ 63 - 1

/-! ## `algorithms/settlement.go` -/

/-- Go `type Transaction struct { From, To uint; Amount int64 }`. -/
structure Transaction where
  From : Nat
  To : Nat
  Amount : Int
  deriving DecidableEq, Repr

/-- Go `type balance struct { UserID uint; Amount int64 }`. -/
structure balance where
  UserID : Nat
  Amount : Int
  deriving DecidableEq, Repr

/-- A Go `map[uint]int64`, as the sequence of entries that `range` enumerates. -/
abbrev BalanceMap := List (Nat × Int)

/-- One iteration of the `for uid, amt := range balances` loop (lines 33-39):
the state is the pair `(creditors, debtors)`. -/
def collectStep (acc : List balance × List balance) (e : Nat × Int) :
    List balance × List balance :=
  if e.2 > 0 then
    (acc.1 ++ [⟨e.1, e.2⟩], acc.2)
  else if e.2 < 0 then
    (acc.1, acc.2 ++ [⟨e.1, wrap64 (-e.2)⟩])
  else
    acc

/-- Lines 30-39: the creditors and debtors slices after the `range` loop. -/
def collect (balances : BalanceMap) : List balance × List balance :=
  balances.foldl collectStep ([], [])

/-- The comparison handed to both `sort.Slice` calls (lines 42-43):
`less(i, j) = x[i].Amount > x[j].Amount`. -/
def less (a b : balance) : Prop := a.Amount > b.Amount

instance (a b : balance) : Decidable (less a b) := by
  unfold less; exact inferInstance

/-- What `sort.Slice` guarantees of its result: it is a rearrangement of the
slice in which no later element is `less` than an earlier one.  Nothing is
promised about the relative order of elements of equal amount. -/
def SortsByLess (sortSlice : List balance → List balance) : Prop :=
  ∀ l, (sortSlice l).Perm l ∧ (sortSlice l).Pairwise (fun a b => ¬ less b a)

/-- The `for i < len(debtors) && j < len(creditors)` loop (lines 48-73).
The first argument bounds the number of iterations.  The second and third are
`debtors[i:]` and `creditors[j:]`, whose heads carry the amounts already reduced
by earlier iterations; advancing a cursor drops the head. -/
def settleLoop : Nat → List balance → List balance → List Transaction
  | 0, _, _ => []
  | _ + 1, [], _ => []
  | _ + 1, _ :: _, [] => []
  | fuel + 1, debtor :: ds, creditor :: cs =>
    let transfer := if creditor.Amount < debtor.Amount then creditor.Amount else debtor.Amount
    let dAmount := wrap64 (debtor.Amount - transfer)
    let cAmount := wrap64 (creditor.Amount - transfer)
    { From := debtor.UserID, To := creditor.UserID, Amount := transfer } ::
      settleLoop fuel
        (if dAmount = 0 then ds else { debtor with Amount := dAmount } :: ds)
        (if cAmount = 0 then cs else { creditor with Amount := cAmount } :: cs)

/-- Go `func MinimizeTransactions(balances map[uint]int64) []Transaction`.
Every iteration of the loop advances at least one cursor, so
`len(debtors) + len(creditors)` iterations always suffice
(see `settleLoop_fuel`). -/
def MinimizeTransactions (sortSlice : List balance → List balance)
    (balances : BalanceMap) : List Transaction :=
  let creditors := sortSlice (collect balances).1
  let debtors := sortSlice (collect balances).2
  settleLoop (debtors.length + creditors.length) debtors creditors

/-- Insertion of one element into a slice sorted by `less`, after the elements
that are `less` than it and before all others. -/
def insertByLess (b : balance) : List balance → List balance
  | [] => [b]
  | x :: xs => if less x b then x :: insertByLess b xs else b :: x :: xs

/-- A concrete `sort.Slice`: insertion sort (it happens to be stable). -/
def insertionSortSlice : List balance → List balance
  | [] => []
  | x :: xs => insertByLess x (insertionSortSlice xs)

/-- Another concrete `sort.Slice`: it sorts the reversed slice, so elements of
equal amount come out in the opposite order. -/
def reverseSortSlice (l : List balance) : List balance :=
  insertionSortSlice l.reverse

/-! ## Applying a settlement to a copy of the balances -/

/-- Go `m[k]` on a `map[uint]int64`: the stored value, `0` for an absent key. -/
def mapGet : BalanceMap → Nat → Int
  | [], _ => 0
  | (k', x) :: rest, k => if k' = k then x else mapGet rest k

/-- Go `m[k] = f(m[k])`: the entry of `k` is replaced, or created from the zero
value when `k` is absent. -/
def mapModify (f : Int → Int) : BalanceMap → Nat → BalanceMap
  | [], k => [(k, f 0)]
  | (k', x) :: rest, k =>
    if k' = k then (k', f x) :: rest else (k', x) :: mapModify f rest k

/-- Go `m[k] += v` on `int64` values. -/
def mapAdd (m : BalanceMap) (k : Nat) (v : Int) : BalanceMap :=
  mapModify (fun x => wrap64 (x + v)) m k

/-- Go `m[k] -= v` on `int64` values. -/
def mapSub (m : BalanceMap) (k : Nat) (v : Int) : BalanceMap :=
  mapModify (fun x => wrap64 (x - v)) m k

/-- Applying one transaction to a balance mapping: `From` pays `Amount` to `To`,
so the net balance of `From` rises by `Amount` and that of `To` falls by it. -/
def applyTransaction (m : BalanceMap) (t : Transaction) : BalanceMap :=
  mapSub (mapAdd m t.From t.Amount) t.To t.Amount

/-- Applying a list of transactions in order. -/
def applyTransactions (m : BalanceMap) (txs : List Transaction) : BalanceMap :=
  txs.foldl applyTransaction m

/-! ## `models/expense.go` and `handlers/settlements.go` -/

/-- Go `models.Expense`: the fields the engine reads (`ID` is `gorm.Model.ID`). -/
structure Expense where
  ID : Nat
  GroupID : Nat
  PaidBy : Nat
  Amount : Int
  deriving DecidableEq, Repr

/-- Go `models.ExpenseSplit`: the fields the engine reads. -/
structure ExpenseSplit where
  ExpenseID : Nat
  UserID : Nat
  AmountOwed : Int
  deriving DecidableEq, Repr

/-- Go `computeNetBalances` (lines 110-131).  The two arguments are the results
of its two queries: the expenses of the group and the splits of those
expenses.  The result lists the entries of `netBalances` in the order in which
their keys were first written. -/
def computeNetBalances (expenses : List Expense) (splits : List ExpenseSplit) : BalanceMap :=
  let netBalances := expenses.foldl (fun m e => mapAdd m e.PaidBy e.Amount) []
  splits.foldl (fun m s => mapSub m s.UserID s.AmountOwed) netBalances

/-! ## `handlers/expenses.go` -/

/-- Go `type splitEntry struct { UserID uint; Percentage, Amount int64 }`. -/
structure splitEntry where
  UserID : Nat
  Percentage : Int
  Amount : Int
  deriving DecidableEq, Repr

/-- The `"equal"` case (lines 94-106): members `idx, idx+1, ...` of the group,
with `baseShare` and `remainder` already computed. -/
def equalSplits (expenseID : Nat) (baseShare remainder : Int) :
    Nat → List Nat → List ExpenseSplit
  | _, [] => []
  | idx, m :: ms =>
    let share := if (idx : Int) < remainder then wrap64 (baseShare + 1) else baseShare
    { ExpenseID := expenseID, UserID := m, AmountOwed := share } ::
      equalSplits expenseID baseShare remainder (idx + 1) ms

/-- The `"percentage"` loop (lines 131-145): entries `idx, idx+1, ...` of
`input.Splits`, of which there are `n`, with `allocated` as accumulated so far. -/
def percentageSplits (expenseID : Nat) (amount : Int) (n : Nat) :
    Nat → Int → List splitEntry → List ExpenseSplit
  | _, _, [] => []
  | idx, allocated, s :: ss =>
    let share :=
      if idx = n - 1 then wrap64 (amount - allocated)
      else Int.tdiv (wrap64 (amount * s.Percentage)) 100
    { ExpenseID := expenseID, UserID := s.UserID, AmountOwed := share } ::
      percentageSplits expenseID amount n (idx + 1) (wrap64 (allocated + share)) ss

/-- The `int64` sum of a field of the request's splits, as the validation
loops accumulate it (lines 116-119 and 155-158). -/
def totalOf (field : splitEntry → Int) (splits : List splitEntry) : Int :=
  splits.foldl (fun total s => wrap64 (total + field s)) 0

/-- The split computation of Go `AddExpense` (lines 43-182): the splits that are
stored for a request, or `none` when the request is answered with an error.
`members` are the user ids of the group's members; the group is taken to exist
and the payer to be one of its members. -/
def AddExpense (expenseID : Nat) (amount : Int) (splitType : String)
    (members : List Nat) (splits : List splitEntry) : Option (List ExpenseSplit) :=
  if amount ≤ 0 then none
  else if splitType = "" then none
  else if (members.length : Int) = 0 then none
  else if splitType = "equal" ∨ splitType = "" then
    let memberCount : Int := members.length
    some (equalSplits expenseID (Int.tdiv amount memberCount) (Int.tmod amount memberCount)
      0 members)
  else if splitType = "percentage" then
    if splits.length = 0 then none
    else if totalOf splitEntry.Percentage splits ≠ 100 then none
    else some (percentageSplits expenseID amount splits.length 0 0 splits)
  else if splitType = "exact" then
    if splits.length = 0 then none
    else if totalOf splitEntry.Amount splits ≠ amount then none
    else some (splits.map fun s =>
      { ExpenseID := expenseID, UserID := s.UserID, AmountOwed := s.Amount })
  else none

/-- The owed amounts of a list of splits. -/
def owedAmounts (splits : List ExpenseSplit) : List Int :=
  splits.map ExpenseSplit.AmountOwed

/-! ## Specification-level vocabulary -/

/-- The keys of a balance mapping are distinct (it is a Go map). -/
def DistinctKeys (m : BalanceMap) : Prop := (m.map Prod.fst).Nodup

instance (m : BalanceMap) : Decidable (DistinctKeys m) := by
  unfold DistinctKeys; exact inferInstance

/-- Every value of the mapping is an `int64`. -/
def Int64Values (m : BalanceMap) : Prop := ∀ e ∈ m, isInt64 e.2

instance (m : BalanceMap) : Decidable (Int64Values m) := by
  unfold Int64Values; exact inferInstance

/-- The exact (unbounded) sum of the values of a mapping. -/
def sumValues (m : BalanceMap) : Int := (m.map Prod.snd).sum

/-- Number of participants with a positive balance. -/
def creditorCount (m : BalanceMap) : Nat := m.countP (fun e => decide (0 < e.2))

/-- Number of participants with a negative balance. -/
def debtorCount (m : BalanceMap) : Nat := m.countP (fun e => decide (e.2 < 0))

/-- Total amount paid by `k` in a list of transactions. -/
def paidBy (k : Nat) (txs : List Transaction) : Int :=
  ((txs.filter (fun t => decide (t.From = k))).map Transaction.Amount).sum

/-- Total amount received by `k` in a list of transactions. -/
def receivedBy (k : Nat) (txs : List Transaction) : Int :=
  ((txs.filter (fun t => decide (t.To = k))).map Transaction.Amount).sum

/-- Total of the amounts that a slice of balances holds for user `k`. -/
def amountOf (k : Nat) (l : List balance) : Int :=
  ((l.filter (fun b => decide (b.UserID = k))).map balance.Amount).sum

/-- Total of all amounts of a slice of balances. -/
def totalAmount (l : List balance) : Int := (l.map balance.Amount).sum

/-- Every amount of the slice is a positive `int64`. -/
def PositiveAmounts (l : List balance) : Prop :=
  ∀ b ∈ l, 0 < b.Amount ∧ b.Amount < 2 ^ 63

/-! ## Closed forms of the pieces of `MinimizeTransactions` -/

/-- The amount moved in one iteration (lines 53-56). -/
def transferOf (debtor creditor : balance) : Int :=
  if creditor.Amount < debtor.Amount then creditor.Amount else debtor.Amount

/-- The debtors slice from the cursor on, after one iteration. -/
def nextDebtors (debtor creditor : balance) (ds : List balance) : List balance :=
  if wrap64 (debtor.Amount - transferOf debtor creditor) = 0 then ds
  else { debtor with Amount := wrap64 (debtor.Amount - transferOf debtor creditor) } :: ds

/-- The creditors slice from the cursor on, after one iteration. -/
def nextCreditors (debtor creditor : balance) (cs : List balance) : List balance :=
  if wrap64 (creditor.Amount - transferOf debtor creditor) = 0 then cs
  else { creditor with Amount := wrap64 (creditor.Amount - transferOf debtor creditor) } :: cs

/-- The creditors slice, in closed form. -/
def creditorsOf (m : BalanceMap) : List balance :=
  (m.filter (fun e => decide (0 < e.2))).map (fun e => ⟨e.1, e.2⟩)

/-- The debtors slice, in closed form. -/
def debtorsOf (m : BalanceMap) : List balance :=
  (m.filter (fun e => decide (e.2 < 0))).map (fun e => ⟨e.1, wrap64 (-e.2)⟩)

/-- No two participants have the same non-zero balance. -/
def DistinctAmounts (m : BalanceMap) : Prop :=
  ∀ e ∈ m, ∀ e' ∈ m, e.2 = e'.2 → e.2 ≠ 0 → e = e'

instance (m : BalanceMap) : Decidable (DistinctAmounts m) := by
  unfold DistinctAmounts; exact inferInstance

/-- A zero-sum mapping of `int64` balances with a debtor at `math.MinInt64`:
`{1: -2^63, 2: 2^62 + 1, 3: 2^62 - 1}`. -/
def unsettledInput : BalanceMap := [(1, minInt64), (2, 2 ^ 62 + 1), (3, 2 ^ 62 - 1)]

/-- A mapping whose largest debtor is at `math.MinInt64`: `{1: -2^63, 2: -1, 3: 5}`. -/
def misorderedInput : BalanceMap := [(1, minInt64), (2, -1), (3, 5)]

/-- The absolute debts of the payers of a list of transactions, in order. -/
def payerDebts (m : BalanceMap) (txs : List Transaction) : List Int :=
  txs.map (fun t => -mapGet m t.From)

/-- The credits of the receivers of a list of transactions, in order. -/
def receiverCredits (m : BalanceMap) (txs : List Transaction) : List Int :=
  txs.map (fun t => mapGet m t.To)

/-- A list of transactions settles a mapping: applying it leaves every balance
at 0. -/
def Settles (m : BalanceMap) (txs : List Transaction) : Prop :=
  ∀ e ∈ applyTransactions m txs, e.2 = 0

instance (m : BalanceMap) (txs : List Transaction) : Decidable (Settles m txs) := by
  unfold Settles; exact inferInstance

/-- Exact total of the amounts of the expenses that `k` paid. -/
def paidTotal (k : Nat) (expenses : List Expense) : Int :=
  ((expenses.filter (fun e => decide (e.PaidBy = k))).map Expense.Amount).sum

/-- Exact total of the owed amounts of the splits of participant `k`. -/
def owedTotal (k : Nat) (splits : List ExpenseSplit) : Int :=
  ((splits.filter (fun s => decide (s.UserID = k))).map ExpenseSplit.AmountOwed).sum

/-- Exact total of the owed amounts of the splits of the expense `id`. -/
def splitTotal (id : Nat) (splits : List ExpenseSplit) : Int :=
  ((splits.filter (fun s => decide (s.ExpenseID = id))).map ExpenseSplit.AmountOwed).sum

/-- The ledger of one group is internally consistent: expenses have distinct
ids, every split belongs to one of the expenses, and the owed amounts of the
splits of each expense sum to the amount of that expense. -/
def ConsistentLedger (expenses : List Expense) (splits : List ExpenseSplit) : Prop :=
  (expenses.map Expense.ID).Nodup ∧
  (∀ s ∈ splits, s.ExpenseID ∈ expenses.map Expense.ID) ∧
  (∀ e ∈ expenses, splitTotal e.ID splits = e.Amount)

instance (expenses : List Expense) (splits : List ExpenseSplit) :
    Decidable (ConsistentLedger expenses splits) := by
  unfold ConsistentLedger; exact inferInstance

/-- Two expenses of `2^62` paid by participant 1, each owed in full by
participant 2. -/
def largeExpenses : List Expense := [⟨1, 1, 1, 2 ^ 62⟩, ⟨2, 1, 1, 2 ^ 62⟩]

/-- The splits of `largeExpenses`. -/
def largeSplits : List ExpenseSplit := [⟨1, 2, 2 ^ 62⟩, ⟨2, 2, 2 ^ 62⟩]

/-- A request of the largest `int64` amount, split by the percentages 100 and 0. -/
def largePercentageSplits : List splitEntry := [⟨1, 100, 0⟩, ⟨2, 0, 0⟩]

/-- An unbalanced mapping with a debtor at `math.MinInt64`: `{1: -2^63, 2: 5}`. -/
def overshootInput : BalanceMap := [(1, minInt64), (2, 5)]

/-- The absolute debt of `k` in a mapping: the negated balance when that is
negative, else 0 (an exact integer, `2^63` for a balance of `math.MinInt64`). -/
def debtOf (m : BalanceMap) (k : Nat) : Int :=
  if mapGet m k < 0 then -mapGet m k else 0

/-- The credit of `k` in a mapping: the balance when that is positive, else 0. -/
def creditOf (m : BalanceMap) (k : Nat) : Int :=
  if 0 < mapGet m k then mapGet m k else 0

/-- A request of the amount 5 split exactly into `2^62, 2^62, 2^62, 2^62, 5`. -/
def wrappedExactSplits : List splitEntry :=
  [⟨1, 0, 2 ^ 62⟩, ⟨2, 0, 2 ^ 62⟩, ⟨3, 0, 2 ^ 62⟩, ⟨4, 0, 2 ^ 62⟩, ⟨5, 0, 5⟩]

/-! # Theorems -/

/-! ## Lemmas on `wrap64` -/

theorem wrap64_of_isInt64 {x : Int} (h : isInt64 x) : wrap64 x = x := by
  unfold isInt64 at h
  unfold wrap64
  rw [Int.emod_eq_of_lt (by omega) (by omega)]
  omega

theorem isInt64_wrap64 (x : Int) : isInt64 (wrap64 x) := by
  unfold isInt64 wrap64
  have h1 := Int.emod_nonneg (x + 2 ^ 63) (show (2 : Int) ^ 64 ≠ 0 by norm_num)
  have h2 := Int.emod_lt_of_pos (x + 2 ^ 63) (show (0 : Int) < 2 ^ 64 by norm_num)
  constructor <;> omega

theorem wrap64_zero : wrap64 0 = 0 := by decide

theorem wrap64_wrap64 (x : Int) : wrap64 (wrap64 x) = wrap64 x :=
  wrap64_of_isInt64 (isInt64_wrap64 x)

theorem wrap64_add_left (a b : Int) : wrap64 (wrap64 a + b) = wrap64 (a + b) := by
  unfold wrap64; omega

theorem wrap64_sub_left (a b : Int) : wrap64 (wrap64 a - b) = wrap64 (a - b) := by
  unfold wrap64; omega

theorem wrap64_add_right (a b : Int) : wrap64 (a + wrap64 b) = wrap64 (a + b) := by
  unfold wrap64; omega

/-- Two `int64` values that agree after reduction are equal. -/
theorem eq_of_wrap64_eq {x y : Int} (hx : isInt64 x) (hy : isInt64 y)
    (h : wrap64 x = wrap64 y) : x = y := by
  rw [wrap64_of_isInt64 hx, wrap64_of_isInt64 hy] at h; exact h

/-- Negation of an `int64` other than `math.MinInt64` does not overflow. -/
theorem wrap64_neg {x : Int} (h : isInt64 x) (hmin : x ≠ minInt64) : wrap64 (-x) = -x := by
  unfold isInt64 at h; unfold minInt64 at hmin
  apply wrap64_of_isInt64; unfold isInt64; omega

/-- Negating `math.MinInt64` overflows: the result is `math.MinInt64` again. -/
theorem wrap64_neg_minInt64 : wrap64 (-minInt64) = minInt64 := by decide

/-! ## The settlement loop: termination and shape -/

theorem settleLoop_nil_left (fuel : Nat) (cs : List balance) : settleLoop fuel [] cs = [] := by
  cases fuel <;> rfl

theorem settleLoop_nil_right (fuel : Nat) (ds : List balance) : settleLoop fuel ds [] = [] := by
  cases fuel with
  | zero => rfl
  | succ n => cases ds <;> rfl

theorem settleLoop_cons (fuel : Nat) (d c : balance) (ds cs : List balance) :
    settleLoop (fuel + 1) (d :: ds) (c :: cs) =
      { From := d.UserID, To := c.UserID, Amount := transferOf d c } ::
        settleLoop fuel (nextDebtors d c ds) (nextCreditors d c cs) := rfl

/-- Every iteration advances at least one of the two cursors. -/
theorem next_length (d c : balance) (ds cs : List balance) :
    (nextDebtors d c ds).length + (nextCreditors d c cs).length ≤ ds.length + cs.length + 1 := by
  unfold nextDebtors nextCreditors transferOf
  by_cases h : c.Amount < d.Amount
  · simp only [h, if_true, sub_self, wrap64_zero]
    split
    · simp
    · simp only [List.length_cons]; omega
  · simp only [h, if_false, sub_self, wrap64_zero, if_true]
    split
    · simp
    · simp only [List.length_cons]; omega

theorem nextDebtors_length (d c : balance) (ds : List balance) :
    (nextDebtors d c ds).length ≤ ds.length + 1 := by
  unfold nextDebtors; split <;> simp

theorem nextCreditors_length (d c : balance) (cs : List balance) :
    (nextCreditors d c cs).length ≤ cs.length + 1 := by
  unfold nextCreditors; split <;> simp

/-- The loop has finished within `len(debtors) + len(creditors)` iterations:
any larger bound on the number of iterations gives the same transactions. -/
theorem settleLoop_fuel (f g : Nat) (ds cs : List balance)
    (hf : ds.length + cs.length ≤ f) (hg : ds.length + cs.length ≤ g) :
    settleLoop f ds cs = settleLoop g ds cs := by
  induction f generalizing g ds cs with
  | zero =>
    have hd : ds = [] := List.length_eq_zero.mp (by omega)
    subst hd
    rw [settleLoop_nil_left, settleLoop_nil_left]
  | succ n ih =>
    cases ds with
    | nil => rw [settleLoop_nil_left, settleLoop_nil_left]
    | cons d ds =>
      cases cs with
      | nil => rw [settleLoop_nil_right, settleLoop_nil_right]
      | cons c cs =>
        cases g with
        | zero => simp at hg
        | succ g =>
          rw [settleLoop_cons, settleLoop_cons]
          have hl := next_length d c ds cs
          simp only [List.length_cons] at hf hg
          rw [ih g _ _ (by omega) (by omega)]

/-- The iteration bound used by `MinimizeTransactions` never cuts the loop short:
any larger bound gives the same list of transactions. -/
theorem MinimizeTransactions_fuel (sortSlice : List balance → List balance)
    (balances : BalanceMap) (fuel : Nat)
    (h : (sortSlice (collect balances).2).length + (sortSlice (collect balances).1).length
      ≤ fuel) :
    settleLoop fuel (sortSlice (collect balances).2) (sortSlice (collect balances).1)
      = MinimizeTransactions sortSlice balances := by
  unfold MinimizeTransactions
  exact settleLoop_fuel _ _ _ _ h (le_refl _)

/-- The number of iterations is below `len(debtors) + len(creditors)`. -/
theorem settleLoop_length (fuel : Nat) (ds cs : List balance) :
    (settleLoop fuel ds cs).length ≤ ds.length + cs.length - 1 := by
  induction fuel generalizing ds cs with
  | zero => simp [settleLoop]
  | succ n ih =>
    cases ds with
    | nil => simp [settleLoop_nil_left]
    | cons d ds =>
      cases cs with
      | nil => simp [settleLoop_nil_right]
      | cons c cs =>
        rw [settleLoop_cons]
        have hl := next_length d c ds cs
        have h := ih (nextDebtors d c ds) (nextCreditors d c cs)
        simp only [List.length_cons]
        by_cases h0 : (nextDebtors d c ds).length + (nextCreditors d c cs).length = 0
        · have hd : nextDebtors d c ds = [] := List.length_eq_zero.mp (by omega)
          rw [hd, settleLoop_nil_left]; simp only [List.length_nil]; omega
        · omega

/-- Payers are debtors and receivers are creditors. -/
theorem settleLoop_mem (fuel : Nat) (ds cs : List balance) (t : Transaction)
    (ht : t ∈ settleLoop fuel ds cs) :
    t.From ∈ ds.map balance.UserID ∧ t.To ∈ cs.map balance.UserID := by
  induction fuel generalizing ds cs with
  | zero => simp [settleLoop] at ht
  | succ n ih =>
    cases ds with
    | nil => simp [settleLoop_nil_left] at ht
    | cons d ds =>
      cases cs with
      | nil => simp [settleLoop_nil_right] at ht
      | cons c cs =>
        rw [settleLoop_cons, List.mem_cons] at ht
        rcases ht with rfl | ht
        · simp
        · have h := ih _ _ ht
          constructor
          · have h1 := h.1
            unfold nextDebtors at h1
            split at h1
            · simp only [List.map_cons, List.mem_cons]; right; exact h1
            · simpa using h1
          · have h2 := h.2
            unfold nextCreditors at h2
            split at h2
            · simp only [List.map_cons, List.mem_cons]; right; exact h2
            · simpa using h2

/-! ## The partition into creditors and debtors -/

theorem foldl_collectStep (m : BalanceMap) (acc : List balance × List balance) :
    m.foldl collectStep acc = (acc.1 ++ creditorsOf m, acc.2 ++ debtorsOf m) := by
  induction m generalizing acc with
  | nil => simp [creditorsOf, debtorsOf]
  | cons e m ih =>
    rw [List.foldl_cons, ih]
    unfold collectStep creditorsOf debtorsOf
    by_cases h1 : 0 < e.2
    · have h2 : ¬ e.2 < 0 := by omega
      simp [h1, h2]
    · by_cases h2 : e.2 < 0
      · simp [h1, h2]
      · simp [h1, h2]

theorem collect_eq (m : BalanceMap) : collect m = (creditorsOf m, debtorsOf m) := by
  unfold collect; rw [foldl_collectStep]; simp

theorem creditorsOf_length (m : BalanceMap) : (creditorsOf m).length = creditorCount m := by
  unfold creditorsOf creditorCount
  rw [List.length_map, List.countP_eq_length_filter]

theorem debtorsOf_length (m : BalanceMap) : (debtorsOf m).length = debtorCount m := by
  unfold debtorsOf debtorCount
  rw [List.length_map, List.countP_eq_length_filter]

/-- With distinct keys, an entry of the mapping is what a lookup returns. -/
theorem mapGet_of_mem {m : BalanceMap} (hk : DistinctKeys m) {k : Nat} {v : Int}
    (h : (k, v) ∈ m) : mapGet m k = v := by
  induction m with
  | nil => simp at h
  | cons e m ih =>
    obtain ⟨k', x⟩ := e
    unfold DistinctKeys at hk
    simp only [List.map_cons, List.nodup_cons] at hk
    rw [List.mem_cons] at h
    unfold mapGet
    rcases h with h | h
    · injection h with h1 h2
      subst h1; subst h2; simp
    · have hne : k' ≠ k := by
        intro hkk; subst hkk
        exact hk.1 (List.mem_map.mpr ⟨(k', v), h, rfl⟩)
      simp only [hne, if_false]
      exact ih hk.2 h

theorem mem_creditorsOf {m : BalanceMap} {b : balance} (h : b ∈ creditorsOf m) :
    (b.UserID, b.Amount) ∈ m ∧ 0 < b.Amount := by
  unfold creditorsOf at h
  simp only [List.mem_map, List.mem_filter, decide_eq_true_eq] at h
  obtain ⟨e, ⟨he, hpos⟩, rfl⟩ := h
  exact ⟨he, hpos⟩

theorem mem_debtorsOf {m : BalanceMap} {b : balance} (h : b ∈ debtorsOf m) :
    ∃ v, (b.UserID, v) ∈ m ∧ v < 0 ∧ b.Amount = wrap64 (-v) := by
  unfold debtorsOf at h
  simp only [List.mem_map, List.mem_filter, decide_eq_true_eq] at h
  obtain ⟨e, ⟨he, hneg⟩, rfl⟩ := h
  exact ⟨e.2, he, hneg, rfl⟩

/-! ## The two concrete sorts meet the contract of `sort.Slice` -/

theorem insertByLess_perm (b : balance) (l : List balance) :
    (insertByLess b l).Perm (b :: l) := by
  induction l with
  | nil => exact List.Perm.refl _
  | cons x xs ih =>
    unfold insertByLess
    split
    · exact ((List.Perm.cons x ih).trans (List.Perm.swap b x xs))
    · exact List.Perm.refl _

theorem insertByLess_sorted (b : balance) (l : List balance)
    (h : l.Pairwise (fun a c => ¬ less c a)) :
    (insertByLess b l).Pairwise (fun a c => ¬ less c a) := by
  induction l with
  | nil => simp [insertByLess]
  | cons x xs ih =>
    rw [List.pairwise_cons] at h
    unfold insertByLess
    split
    · rename_i hlt
      rw [List.pairwise_cons]
      refine ⟨?_, ih h.2⟩
      intro y hy
      rcases (List.mem_cons.mp ((insertByLess_perm b xs).subset hy)) with rfl | hy
      · unfold less at hlt ⊢; omega
      · exact h.1 y hy
    · rename_i hnl
      rw [List.pairwise_cons]
      refine ⟨?_, List.pairwise_cons.mpr h⟩
      intro y hy
      rcases List.mem_cons.mp hy with rfl | hy
      · exact hnl
      · have := h.1 y hy
        unfold less at hnl this ⊢; omega

theorem insertionSortSlice_sorts : SortsByLess insertionSortSlice := by
  intro l
  induction l with
  | nil => exact ⟨List.Perm.refl _, List.Pairwise.nil⟩
  | cons x xs ih =>
    unfold insertionSortSlice
    exact ⟨(insertByLess_perm x _).trans (List.Perm.cons x ih.1), insertByLess_sorted x _ ih.2⟩

theorem reverseSortSlice_sorts : SortsByLess reverseSortSlice := by
  intro l
  unfold reverseSortSlice
  exact ⟨(insertionSortSlice_sorts l.reverse).1.trans (List.reverse_perm l),
    (insertionSortSlice_sorts l.reverse).2⟩

/-! ## Number of transactions and their endpoints -/

/-- C4. For every balance mapping with at least one non-zero balance, the number
of transactions returned by `MinimizeTransactions` is at most (number of
participants with positive balance) + (number of participants with negative
balance) - 1.  The bound holds whether or not the mapping sums to zero, for
every enumeration order of the mapping and every behaviour of `sort.Slice`. -/
theorem MinimizeTransactions_length (sortSlice : List balance → List balance)
    (hs : SortsByLess sortSlice) (balances : BalanceMap)
    (hne : ∃ e ∈ balances, e.2 ≠ 0) :
    (MinimizeTransactions sortSlice balances).length + 1
      ≤ creditorCount balances + debtorCount balances := by
  unfold MinimizeTransactions
  rw [collect_eq]
  have h := settleLoop_length
    ((sortSlice (debtorsOf balances)).length + (sortSlice (creditorsOf balances)).length)
    (sortSlice (debtorsOf balances)) (sortSlice (creditorsOf balances))
  have hc := (hs (creditorsOf balances)).1.length_eq
  have hd := (hs (debtorsOf balances)).1.length_eq
  rw [creditorsOf_length] at hc
  rw [debtorsOf_length] at hd
  have hpos : 0 < creditorCount balances + debtorCount balances := by
    obtain ⟨e, he, hne⟩ := hne
    rcases lt_or_gt_of_ne hne with hlt | hgt
    · have : 0 < debtorCount balances :=
        List.countP_pos_iff.mpr ⟨e, he, by simpa using hlt⟩
      omega
    · have : 0 < creditorCount balances :=
        List.countP_pos_iff.mpr ⟨e, he, by simpa using hgt⟩
      omega
  simp only [] at h ⊢
  omega

/-- Instance of `MinimizeTransactions_length` on a zero-sum mapping with two
creditors and three debtors. -/
theorem MinimizeTransactions_length_witness :
    SortsByLess insertionSortSlice ∧
    (∃ e ∈ ([(1, 5), (2, -3), (3, -2), (4, 4), (5, -4)] : BalanceMap), e.2 ≠ 0) ∧
    (MinimizeTransactions insertionSortSlice [(1, 5), (2, -3), (3, -2), (4, 4), (5, -4)]).length + 1
      ≤ creditorCount [(1, 5), (2, -3), (3, -2), (4, 4), (5, -4)]
        + debtorCount [(1, 5), (2, -3), (3, -2), (4, 4), (5, -4)] :=
  ⟨insertionSortSlice_sorts, ⟨(1, 5), by decide, by decide⟩,
    MinimizeTransactions_length insertionSortSlice insertionSortSlice_sorts
      [(1, 5), (2, -3), (3, -2), (4, 4), (5, -4)] ⟨(1, 5), by decide, by decide⟩⟩

/-- C5. For every balance mapping, every transaction returned by
`MinimizeTransactions` has as `From` a participant whose input balance is
negative and as `To` a participant whose input balance is positive; in
particular `From` differs from `To`. -/
theorem MinimizeTransactions_endpoints (sortSlice : List balance → List balance)
    (hs : SortsByLess sortSlice) (balances : BalanceMap) (hk : DistinctKeys balances)
    (t : Transaction) (ht : t ∈ MinimizeTransactions sortSlice balances) :
    (t.From ∈ balances.map Prod.fst ∧ mapGet balances t.From < 0) ∧
    (t.To ∈ balances.map Prod.fst ∧ 0 < mapGet balances t.To) ∧
    t.From ≠ t.To := by
  unfold MinimizeTransactions at ht
  rw [collect_eq] at ht
  obtain ⟨hf, hto⟩ := settleLoop_mem _ _ _ t ht
  have hfrom : t.From ∈ balances.map Prod.fst ∧ mapGet balances t.From < 0 := by
    obtain ⟨b, hb, hbk⟩ := List.mem_map.mp hf
    obtain ⟨v, hv, hneg, _⟩ := mem_debtorsOf ((hs _).1.subset hb)
    rw [hbk] at hv
    exact ⟨List.mem_map.mpr ⟨_, hv, rfl⟩, by rw [mapGet_of_mem hk hv]; exact hneg⟩
  have hto2 : t.To ∈ balances.map Prod.fst ∧ 0 < mapGet balances t.To := by
    obtain ⟨b, hb, hbk⟩ := List.mem_map.mp hto
    obtain ⟨hv, hpos⟩ := mem_creditorsOf ((hs _).1.subset hb)
    rw [hbk] at hv
    exact ⟨List.mem_map.mpr ⟨_, hv, rfl⟩, by rw [mapGet_of_mem hk hv]; exact hpos⟩
  refine ⟨hfrom, hto2, ?_⟩
  intro heq
  rw [heq] at hfrom
  omega

/-- Instance of `MinimizeTransactions_endpoints`: in the settlement of
`{1: 500, 2: -200, 3: -300}` the transaction `3 -> 1` of 300 has a debtor as
payer and a creditor as receiver. -/
theorem MinimizeTransactions_endpoints_witness :
    (mapGet [(1, 500), (2, -200), (3, -300)] 3 < 0) ∧
    (0 < mapGet [(1, 500), (2, -200), (3, -300)] 1) ∧ (3 : Nat) ≠ 1 :=
  have h := MinimizeTransactions_endpoints insertionSortSlice insertionSortSlice_sorts
    [(1, 500), (2, -200), (3, -300)] (by decide) ⟨3, 1, 300⟩ (by decide)
  ⟨h.1.2, h.2.1.2, h.2.2⟩

/-! ## The loop on positive amounts: no overflow -/

theorem transferOf_eq_min (d c : balance) : transferOf d c = min d.Amount c.Amount := by
  unfold transferOf
  by_cases h : c.Amount < d.Amount
  · rw [if_pos h, min_eq_right (le_of_lt h)]
  · rw [if_neg h, min_eq_left (not_lt.mp h)]

/-- On positive amounts the debtors slice evolves without overflow. -/
theorem nextDebtors_pos (d c : balance) (ds : List balance)
    (hd : 0 < d.Amount ∧ d.Amount < 2 ^ 63) (hc : 0 < c.Amount ∧ c.Amount < 2 ^ 63) :
    nextDebtors d c ds =
      if d.Amount ≤ c.Amount then ds else { d with Amount := d.Amount - c.Amount } :: ds := by
  unfold nextDebtors transferOf
  by_cases h : c.Amount < d.Amount
  · have hw : wrap64 (d.Amount - c.Amount) = d.Amount - c.Amount :=
      wrap64_of_isInt64 (by unfold isInt64; omega)
    have h1 : ¬ d.Amount ≤ c.Amount := by omega
    have h2 : ¬ d.Amount - c.Amount = 0 := by omega
    simp only [if_pos h, hw, if_neg h1, if_neg h2]
  · have h1 : d.Amount ≤ c.Amount := by omega
    simp only [if_neg h, sub_self, wrap64_zero, if_pos h1, if_true]

/-- On positive amounts the creditors slice evolves without overflow. -/
theorem nextCreditors_pos (d c : balance) (cs : List balance)
    (hd : 0 < d.Amount ∧ d.Amount < 2 ^ 63) (hc : 0 < c.Amount ∧ c.Amount < 2 ^ 63) :
    nextCreditors d c cs =
      if c.Amount ≤ d.Amount then cs else { c with Amount := c.Amount - d.Amount } :: cs := by
  unfold nextCreditors transferOf
  by_cases h : c.Amount < d.Amount
  · have h1 : c.Amount ≤ d.Amount := by omega
    simp only [if_pos h, sub_self, wrap64_zero, if_pos h1, if_true]
  · have hw : wrap64 (c.Amount - d.Amount) = c.Amount - d.Amount :=
      wrap64_of_isInt64 (by unfold isInt64; omega)
    by_cases h1 : c.Amount ≤ d.Amount
    · have h2 : c.Amount - d.Amount = 0 := by omega
      simp only [if_neg h, hw, if_pos h1, if_pos h2]
    · have h2 : ¬ c.Amount - d.Amount = 0 := by omega
      simp only [if_neg h, hw, if_neg h1, if_neg h2]

theorem PositiveAmounts_cons {b : balance} {l : List balance} :
    PositiveAmounts (b :: l) ↔ (0 < b.Amount ∧ b.Amount < 2 ^ 63) ∧ PositiveAmounts l := by
  unfold PositiveAmounts
  simp only [List.mem_cons, forall_eq_or_imp]

theorem PositiveAmounts_nextDebtors (d c : balance) (ds : List balance)
    (hd : PositiveAmounts (d :: ds)) (hc : 0 < c.Amount ∧ c.Amount < 2 ^ 63) :
    PositiveAmounts (nextDebtors d c ds) := by
  rw [PositiveAmounts_cons] at hd
  rw [nextDebtors_pos d c ds hd.1 hc]
  split
  · exact hd.2
  · rw [PositiveAmounts_cons]
    exact ⟨by constructor <;> simp only [] <;> omega, hd.2⟩

theorem PositiveAmounts_nextCreditors (d c : balance) (cs : List balance)
    (hd : 0 < d.Amount ∧ d.Amount < 2 ^ 63) (hc : PositiveAmounts (c :: cs)) :
    PositiveAmounts (nextCreditors d c cs) := by
  rw [PositiveAmounts_cons] at hc
  rw [nextCreditors_pos d c cs hd hc.1]
  split
  · exact hc.2
  · rw [PositiveAmounts_cons]
    exact ⟨by constructor <;> simp only [] <;> omega, hc.2⟩

/-- On positive amounts every transfer is positive. -/
theorem settleLoop_amount_pos (fuel : Nat) (ds cs : List balance)
    (hd : PositiveAmounts ds) (hc : PositiveAmounts cs) :
    ∀ t ∈ settleLoop fuel ds cs, 0 < t.Amount := by
  induction fuel generalizing ds cs with
  | zero => intro t ht; simp [settleLoop] at ht
  | succ n ih =>
    cases ds with
    | nil => intro t ht; simp [settleLoop_nil_left] at ht
    | cons d ds =>
      cases cs with
      | nil => intro t ht; simp [settleLoop_nil_right] at ht
      | cons c cs =>
        intro t ht
        rw [settleLoop_cons, List.mem_cons] at ht
        have hd1 := (PositiveAmounts_cons.mp hd).1
        have hc1 := (PositiveAmounts_cons.mp hc).1
        rcases ht with rfl | ht
        · simp only [transferOf_eq_min]
          exact lt_min hd1.1 hc1.1
        · exact ih _ _ (PositiveAmounts_nextDebtors d c ds hd hc1)
            (PositiveAmounts_nextCreditors d c cs hd1 hc) t ht

theorem PositiveAmounts_creditorsOf (m : BalanceMap) (h : Int64Values m) :
    PositiveAmounts (creditorsOf m) := by
  intro b hb
  obtain ⟨hmem, hpos⟩ := mem_creditorsOf hb
  exact ⟨hpos, (h _ hmem).2⟩

theorem PositiveAmounts_debtorsOf (m : BalanceMap) (h : Int64Values m)
    (hmin : ∀ e ∈ m, e.2 ≠ minInt64) : PositiveAmounts (debtorsOf m) := by
  intro b hb
  obtain ⟨v, hmem, hneg, hb⟩ := mem_debtorsOf hb
  have hv := h _ hmem
  have hm := hmin _ hmem
  rw [hb, wrap64_neg hv hm]
  unfold isInt64 at hv; unfold minInt64 at hm
  simp only [] at hv hm
  constructor <;> omega

theorem PositiveAmounts_perm {l l' : List balance} (hp : l'.Perm l) (h : PositiveAmounts l) :
    PositiveAmounts l' := fun b hb => h b (hp.subset hb)

/-- Every transaction has a positive amount when no input balance is
`math.MinInt64`. -/
theorem MinimizeTransactions_amount_pos (sortSlice : List balance → List balance)
    (hs : SortsByLess sortSlice) (balances : BalanceMap) (hv : Int64Values balances)
    (hmin : ∀ e ∈ balances, e.2 ≠ minInt64) :
    ∀ t ∈ MinimizeTransactions sortSlice balances, 0 < t.Amount := by
  unfold MinimizeTransactions
  rw [collect_eq]
  exact settleLoop_amount_pos _ _ _
    (PositiveAmounts_perm (hs _).1 (PositiveAmounts_debtorsOf balances hv hmin))
    (PositiveAmounts_perm (hs _).1 (PositiveAmounts_creditorsOf balances hv))

/-- C3 (failing input). On the mapping `{1: math.MinInt64, 2: 5}` the negation of
the debtor's balance overflows, the debtor is stored with a negative amount,
and `MinimizeTransactions` returns one transaction whose amount is
`math.MinInt64`, which is not greater than 0. -/
theorem MinimizeTransactions_negative_amount (sortSlice : List balance → List balance)
    (hs : SortsByLess sortSlice) :
    Int64Values [(1, minInt64), (2, 5)] ∧
    MinimizeTransactions sortSlice [(1, minInt64), (2, 5)] = [⟨1, 2, minInt64⟩] ∧
    ¬ (∀ t ∈ MinimizeTransactions sortSlice [(1, minInt64), (2, 5)], 0 < t.Amount) := by
  have hc : creditorsOf [(1, minInt64), (2, 5)] = [⟨2, 5⟩] := by decide
  have hd : debtorsOf [(1, minInt64), (2, 5)] = [⟨1, minInt64⟩] := by decide
  have h : MinimizeTransactions sortSlice [(1, minInt64), (2, 5)] = [⟨1, 2, minInt64⟩] := by
    unfold MinimizeTransactions
    rw [collect_eq]
    simp only [hc, hd]
    rw [List.perm_singleton.mp (hs [⟨2, 5⟩]).1, List.perm_singleton.mp (hs [⟨1, minInt64⟩]).1]
    decide
  refine ⟨by decide, h, ?_⟩
  rw [h]
  decide

/-- Instance of `MinimizeTransactions_negative_amount` for insertion sort. -/
theorem MinimizeTransactions_negative_amount_witness :
    SortsByLess insertionSortSlice ∧
    MinimizeTransactions insertionSortSlice [(1, minInt64), (2, 5)] = [⟨1, 2, minInt64⟩] :=
  ⟨insertionSortSlice_sorts,
    (MinimizeTransactions_negative_amount insertionSortSlice insertionSortSlice_sorts).2.1⟩

/-! ## What each participant pays and receives -/

theorem paidBy_nil (k : Nat) : paidBy k [] = 0 := rfl

theorem receivedBy_nil (k : Nat) : receivedBy k [] = 0 := rfl

theorem paidBy_cons (k : Nat) (t : Transaction) (txs : List Transaction) :
    paidBy k (t :: txs) = (if t.From = k then t.Amount else 0) + paidBy k txs := by
  unfold paidBy
  by_cases h : t.From = k <;> simp [List.filter_cons, h]

theorem receivedBy_cons (k : Nat) (t : Transaction) (txs : List Transaction) :
    receivedBy k (t :: txs) = (if t.To = k then t.Amount else 0) + receivedBy k txs := by
  unfold receivedBy
  by_cases h : t.To = k <;> simp [List.filter_cons, h]

theorem amountOf_nil (k : Nat) : amountOf k [] = 0 := rfl

theorem amountOf_cons (k : Nat) (b : balance) (l : List balance) :
    amountOf k (b :: l) = (if b.UserID = k then b.Amount else 0) + amountOf k l := by
  unfold amountOf
  by_cases h : b.UserID = k <;> simp [List.filter_cons, h]

theorem totalAmount_cons (b : balance) (l : List balance) :
    totalAmount (b :: l) = b.Amount + totalAmount l := by
  unfold totalAmount; simp

theorem totalAmount_nonneg (l : List balance) (h : PositiveAmounts l) : 0 ≤ totalAmount l := by
  induction l with
  | nil => simp [totalAmount]
  | cons b l ih =>
    rw [PositiveAmounts_cons] at h
    rw [totalAmount_cons]
    have := ih h.2
    omega

/-- A debtor side that does not exceed the creditor side is paid out in full:
every debtor pays exactly its debt. -/
theorem settleLoop_paidBy (fuel : Nat) (ds cs : List balance)
    (hf : ds.length + cs.length ≤ fuel)
    (hd : PositiveAmounts ds) (hc : PositiveAmounts cs)
    (hle : totalAmount ds ≤ totalAmount cs) (k : Nat) :
    paidBy k (settleLoop fuel ds cs) = amountOf k ds := by
  induction fuel generalizing ds cs with
  | zero =>
    have hnil : ds = [] := List.length_eq_zero.mp (by omega)
    subst hnil; rfl
  | succ n ih =>
    cases ds with
    | nil => rw [settleLoop_nil_left]; rfl
    | cons d ds =>
      have hd1 := (PositiveAmounts_cons.mp hd).1
      have hd2 := (PositiveAmounts_cons.mp hd).2
      have hdn := totalAmount_nonneg ds hd2
      cases cs with
      | nil =>
        rw [totalAmount_cons] at hle
        simp only [totalAmount, List.map_nil, List.sum_nil] at hle hdn
        omega
      | cons c cs =>
        have hc1 := (PositiveAmounts_cons.mp hc).1
        have hc2 := (PositiveAmounts_cons.mp hc).2
        have hlen := next_length d c ds cs
        simp only [List.length_cons] at hf
        have hnd := PositiveAmounts_nextDebtors d c ds hd hc1
        have hnc := PositiveAmounts_nextCreditors d c cs hd1 hc
        have key := ih (nextDebtors d c ds) (nextCreditors d c cs) (by omega) hnd hnc
        rw [settleLoop_cons, paidBy_cons, amountOf_cons]
        rw [totalAmount_cons, totalAmount_cons] at hle
        simp only [transferOf_eq_min]
        rw [nextDebtors_pos d c ds hd1 hc1, nextCreditors_pos d c cs hd1 hc1] at key ⊢
        by_cases h1 : d.Amount ≤ c.Amount
        · rw [if_pos h1] at key ⊢
          rw [min_eq_left h1]
          by_cases h2 : c.Amount ≤ d.Amount
          · rw [if_pos h2] at key ⊢
            rw [key (by omega)]
          · rw [if_neg h2] at key ⊢
            rw [key (by rw [totalAmount_cons]; simp only []; omega)]
        · rw [if_neg h1] at key ⊢
          have h2 : c.Amount ≤ d.Amount := by omega
          rw [if_pos h2] at key ⊢
          rw [min_eq_right h2, key (by rw [totalAmount_cons]; simp only []; omega), amountOf_cons]
          simp only []
          by_cases hk : d.UserID = k
          · simp only [hk, if_true]; omega
          · simp only [hk, if_false]; omega

/-- A creditor side that does not exceed the debtor side is paid in full:
every creditor receives exactly its credit. -/
theorem settleLoop_receivedBy (fuel : Nat) (ds cs : List balance)
    (hf : ds.length + cs.length ≤ fuel)
    (hd : PositiveAmounts ds) (hc : PositiveAmounts cs)
    (hle : totalAmount cs ≤ totalAmount ds) (k : Nat) :
    receivedBy k (settleLoop fuel ds cs) = amountOf k cs := by
  induction fuel generalizing ds cs with
  | zero =>
    have hnil : cs = [] := List.length_eq_zero.mp (by omega)
    subst hnil; rw [settleLoop_nil_right]; rfl
  | succ n ih =>
    cases cs with
    | nil => rw [settleLoop_nil_right]; rfl
    | cons c cs =>
      have hc1 := (PositiveAmounts_cons.mp hc).1
      have hc2 := (PositiveAmounts_cons.mp hc).2
      have hcn := totalAmount_nonneg cs hc2
      cases ds with
      | nil =>
        rw [totalAmount_cons] at hle
        simp only [totalAmount, List.map_nil, List.sum_nil] at hle hcn
        omega
      | cons d ds =>
        have hd1 := (PositiveAmounts_cons.mp hd).1
        have hd2 := (PositiveAmounts_cons.mp hd).2
        have hlen := next_length d c ds cs
        simp only [List.length_cons] at hf
        have hnd := PositiveAmounts_nextDebtors d c ds hd hc1
        have hnc := PositiveAmounts_nextCreditors d c cs hd1 hc
        have key := ih (nextDebtors d c ds) (nextCreditors d c cs) (by omega) hnd hnc
        rw [settleLoop_cons, receivedBy_cons, amountOf_cons]
        rw [totalAmount_cons, totalAmount_cons] at hle
        simp only [transferOf_eq_min]
        rw [nextDebtors_pos d c ds hd1 hc1, nextCreditors_pos d c cs hd1 hc1] at key ⊢
        by_cases h1 : c.Amount ≤ d.Amount
        · rw [if_pos h1] at key ⊢
          rw [min_eq_right h1]
          by_cases h2 : d.Amount ≤ c.Amount
          · rw [if_pos h2] at key ⊢
            rw [key (by omega)]
          · rw [if_neg h2] at key ⊢
            rw [key (by rw [totalAmount_cons]; simp only []; omega)]
        · rw [if_neg h1] at key ⊢
          have h2 : d.Amount ≤ c.Amount := by omega
          rw [if_pos h2] at key ⊢
          rw [min_eq_left h2, key (by rw [totalAmount_cons]; simp only []; omega), amountOf_cons]
          simp only []
          by_cases hk : c.UserID = k
          · simp only [hk, if_true]; omega
          · simp only [hk, if_false]; omega

/-! ## Go maps as entry lists -/

theorem mapGet_mapModify (f : Int → Int) (m : BalanceMap) (k k' : Nat) :
    mapGet (mapModify f m k) k' = if k = k' then f (mapGet m k) else mapGet m k' := by
  induction m with
  | nil =>
    by_cases h : k = k' <;> simp [mapModify, mapGet, h]
  | cons e m ih =>
    obtain ⟨a, x⟩ := e
    by_cases h1 : a = k
    · subst h1
      by_cases h2 : a = k' <;> simp [mapModify, mapGet, h2]
    · by_cases h2 : a = k'
      · subst h2
        simp [mapModify, mapGet, h1, Ne.symm h1]
      · simp only [mapModify, mapGet, h1, h2, if_false]
        exact ih

theorem keys_mapModify (f : Int → Int) (m : BalanceMap) (k : Nat) :
    (mapModify f m k).map Prod.fst =
      if k ∈ m.map Prod.fst then m.map Prod.fst else m.map Prod.fst ++ [k] := by
  induction m with
  | nil => simp [mapModify]
  | cons e m ih =>
    obtain ⟨a, x⟩ := e
    unfold mapModify
    by_cases h1 : a = k
    · subst h1; simp
    · simp only [h1, if_false, List.map_cons, ih, List.mem_cons]
      have h1' : ¬ k = a := fun h => h1 h.symm
      by_cases h2 : k ∈ m.map Prod.fst
      · simp [h2]
      · simp [h2, h1']

theorem mem_keys_mapModify (f : Int → Int) (m : BalanceMap) (k k' : Nat) :
    k' ∈ (mapModify f m k).map Prod.fst ↔ k' = k ∨ k' ∈ m.map Prod.fst := by
  rw [keys_mapModify]
  by_cases h : k ∈ m.map Prod.fst
  · rw [if_pos h]
    constructor
    · intro h'; exact Or.inr h'
    · rintro (rfl | h')
      · exact h
      · exact h'
  · rw [if_neg h, List.mem_append, List.mem_singleton]
    tauto

theorem DistinctKeys_mapModify (f : Int → Int) (m : BalanceMap) (k : Nat)
    (h : DistinctKeys m) : DistinctKeys (mapModify f m k) := by
  unfold DistinctKeys at h ⊢
  rw [keys_mapModify]
  by_cases hk : k ∈ m.map Prod.fst
  · rw [if_pos hk]; exact h
  · rw [if_neg hk]
    exact List.Nodup.append h (List.nodup_singleton k)
      (by intro a ha hb; rw [List.mem_singleton] at hb; subst hb; exact hk ha)

theorem Int64Values_mapModify (f : Int → Int) (hf : ∀ x, isInt64 (f x)) (m : BalanceMap)
    (k : Nat) (h : Int64Values m) : Int64Values (mapModify f m k) := by
  induction m with
  | nil =>
    intro e he
    simp only [mapModify, List.mem_singleton] at he
    subst he; exact hf 0
  | cons e m ih =>
    obtain ⟨a, x⟩ := e
    unfold mapModify
    have hm : Int64Values m := fun e he => h e (List.mem_cons_of_mem _ he)
    by_cases h1 : a = k
    · simp only [h1, if_true]
      intro e he
      rcases List.mem_cons.mp he with rfl | he
      · exact hf x
      · exact hm e he
    · simp only [h1, if_false]
      intro e he
      rcases List.mem_cons.mp he with rfl | he
      · exact h (a, x) (List.mem_cons_self _ _)
      · exact ih hm e he

theorem mapGet_of_not_mem (m : BalanceMap) (k : Nat) (h : k ∉ m.map Prod.fst) :
    mapGet m k = 0 := by
  induction m with
  | nil => rfl
  | cons e m ih =>
    obtain ⟨a, x⟩ := e
    simp only [List.map_cons, List.mem_cons, not_or] at h
    unfold mapGet
    rw [if_neg (fun hh => h.1 hh.symm)]
    exact ih h.2

theorem isInt64_mapGet (m : BalanceMap) (h : Int64Values m) (k : Nat) :
    isInt64 (mapGet m k) := by
  induction m with
  | nil => unfold mapGet isInt64; omega
  | cons e m ih =>
    obtain ⟨a, x⟩ := e
    unfold mapGet
    split
    · exact h (a, x) (List.mem_cons_self _ _)
    · exact ih (fun e he => h e (List.mem_cons_of_mem _ he))

/-! ## Applying transactions -/

theorem DistinctKeys_applyTransactions (txs : List Transaction) (m : BalanceMap)
    (h : DistinctKeys m) : DistinctKeys (applyTransactions m txs) := by
  induction txs generalizing m with
  | nil => exact h
  | cons t txs ih =>
    unfold applyTransactions
    rw [List.foldl_cons]
    exact ih _ (DistinctKeys_mapModify _ _ _ (DistinctKeys_mapModify _ _ _ h))

theorem Int64Values_applyTransactions (txs : List Transaction) (m : BalanceMap)
    (h : Int64Values m) : Int64Values (applyTransactions m txs) := by
  induction txs generalizing m with
  | nil => exact h
  | cons t txs ih =>
    unfold applyTransactions
    rw [List.foldl_cons]
    exact ih _ (Int64Values_mapModify _ (fun x => isInt64_wrap64 _) _ _
      (Int64Values_mapModify _ (fun x => isInt64_wrap64 _) _ _ h))

theorem mapGet_applyTransaction (m : BalanceMap) (t : Transaction) (k : Nat) :
    wrap64 (mapGet (applyTransaction m t) k) =
      wrap64 (mapGet m k + (if t.From = k then t.Amount else 0)
        - (if t.To = k then t.Amount else 0)) := by
  unfold applyTransaction mapSub mapAdd
  simp only [mapGet_mapModify]
  by_cases h1 : t.From = k <;> by_cases h2 : t.To = k
  · subst h1
    simp only [h2, if_true]
    unfold wrap64; omega
  · subst h1
    simp only [h2, if_true, if_false]
    unfold wrap64; omega
  · subst h2
    simp only [h1, if_true, if_false]
    unfold wrap64; omega
  · simp only [h1, h2, if_false]
    unfold wrap64; omega

/-- The balance of `k` after applying transactions, in `int64` arithmetic. -/
theorem mapGet_applyTransactions (txs : List Transaction) (m : BalanceMap) (k : Nat) :
    wrap64 (mapGet (applyTransactions m txs) k) =
      wrap64 (mapGet m k + paidBy k txs - receivedBy k txs) := by
  induction txs generalizing m with
  | nil => simp [applyTransactions, paidBy_nil, receivedBy_nil]
  | cons t txs ih =>
    have h := ih (applyTransaction m t)
    unfold applyTransactions at h ⊢
    rw [List.foldl_cons, h, paidBy_cons, receivedBy_cons]
    have h2 := mapGet_applyTransaction m t k
    generalize mapGet (applyTransaction m t) k = y at h2 ⊢
    generalize (if t.From = k then t.Amount else 0) = a at h2 ⊢
    generalize (if t.To = k then t.Amount else 0) = b at h2 ⊢
    unfold wrap64 at h2 ⊢
    omega

/-! ## Settlement of a zero-sum mapping -/

theorem amountOf_perm (k : Nat) {l l' : List balance} (h : l'.Perm l) :
    amountOf k l' = amountOf k l := by
  unfold amountOf
  exact ((h.filter _).map _).sum_eq

theorem totalAmount_perm {l l' : List balance} (h : l'.Perm l) :
    totalAmount l' = totalAmount l := by
  unfold totalAmount
  exact (h.map _).sum_eq

theorem creditorsOf_cons (e : Nat × Int) (m : BalanceMap) :
    creditorsOf (e :: m) = if 0 < e.2 then ⟨e.1, e.2⟩ :: creditorsOf m else creditorsOf m := by
  unfold creditorsOf
  by_cases h : 0 < e.2 <;> simp [List.filter_cons, h]

theorem debtorsOf_cons (e : Nat × Int) (m : BalanceMap) :
    debtorsOf (e :: m) =
      if e.2 < 0 then ⟨e.1, wrap64 (-e.2)⟩ :: debtorsOf m else debtorsOf m := by
  unfold debtorsOf
  by_cases h : e.2 < 0 <;> simp [List.filter_cons, h]

theorem amountOf_creditorsOf_of_not_mem (m : BalanceMap) (k : Nat)
    (h : k ∉ m.map Prod.fst) : amountOf k (creditorsOf m) = 0 := by
  induction m with
  | nil => rfl
  | cons e m ih =>
    simp only [List.map_cons, List.mem_cons, not_or] at h
    rw [creditorsOf_cons]
    split
    · rw [amountOf_cons, ih h.2]
      simp only []
      rw [if_neg (fun hh => h.1 hh.symm)]; rfl
    · exact ih h.2

theorem amountOf_debtorsOf_of_not_mem (m : BalanceMap) (k : Nat)
    (h : k ∉ m.map Prod.fst) : amountOf k (debtorsOf m) = 0 := by
  induction m with
  | nil => rfl
  | cons e m ih =>
    simp only [List.map_cons, List.mem_cons, not_or] at h
    rw [debtorsOf_cons]
    split
    · rw [amountOf_cons, ih h.2]
      simp only []
      rw [if_neg (fun hh => h.1 hh.symm)]; rfl
    · exact ih h.2

/-- The credit recorded for `k` is its balance when that is positive. -/
theorem amountOf_creditorsOf (m : BalanceMap) (hk : DistinctKeys m) (k : Nat) :
    amountOf k (creditorsOf m) = if 0 < mapGet m k then mapGet m k else 0 := by
  induction m with
  | nil => rfl
  | cons e m ih =>
    obtain ⟨a, x⟩ := e
    unfold DistinctKeys at hk
    simp only [List.map_cons, List.nodup_cons] at hk
    rw [creditorsOf_cons]
    simp only [mapGet]
    by_cases h1 : a = k
    · subst h1
      simp only [if_true]
      by_cases h2 : 0 < x
      · rw [if_pos h2, if_pos h2, amountOf_cons, amountOf_creditorsOf_of_not_mem m a hk.1]
        simp
      · rw [if_neg h2, if_neg h2, amountOf_creditorsOf_of_not_mem m a hk.1]
    · simp only [h1, if_false]
      by_cases h2 : 0 < x
      · rw [if_pos h2, amountOf_cons]
        simp only [h1, if_false, zero_add]
        exact ih hk.2
      · rw [if_neg h2]; exact ih hk.2

/-- The debt recorded for `k` is the `int64` negation of its balance when that
is negative. -/
theorem amountOf_debtorsOf (m : BalanceMap) (hk : DistinctKeys m) (k : Nat) :
    amountOf k (debtorsOf m) = if mapGet m k < 0 then wrap64 (-mapGet m k) else 0 := by
  induction m with
  | nil => rfl
  | cons e m ih =>
    obtain ⟨a, x⟩ := e
    unfold DistinctKeys at hk
    simp only [List.map_cons, List.nodup_cons] at hk
    rw [debtorsOf_cons]
    simp only [mapGet]
    by_cases h1 : a = k
    · subst h1
      simp only [if_true]
      by_cases h2 : x < 0
      · rw [if_pos h2, if_pos h2, amountOf_cons, amountOf_debtorsOf_of_not_mem m a hk.1]
        simp
      · rw [if_neg h2, if_neg h2, amountOf_debtorsOf_of_not_mem m a hk.1]
    · simp only [h1, if_false]
      by_cases h2 : x < 0
      · rw [if_pos h2, amountOf_cons]
        simp only [h1, if_false, zero_add]
        exact ih hk.2
      · rw [if_neg h2]; exact ih hk.2

/-- Credits minus debts is the sum of the balances, when no negation overflows. -/
theorem totalAmount_sub (m : BalanceMap) (hv : Int64Values m)
    (hmin : ∀ e ∈ m, e.2 ≠ minInt64) :
    totalAmount (creditorsOf m) - totalAmount (debtorsOf m) = sumValues m := by
  induction m with
  | nil => rfl
  | cons e m ih =>
    have hv' : Int64Values m := fun e he => hv e (List.mem_cons_of_mem _ he)
    have hmin' : ∀ e ∈ m, e.2 ≠ minInt64 := fun e he => hmin e (List.mem_cons_of_mem _ he)
    have h := ih hv' hmin'
    have hw := wrap64_neg (hv e (List.mem_cons_self _ _)) (hmin e (List.mem_cons_self _ _))
    rw [creditorsOf_cons, debtorsOf_cons]
    unfold sumValues at h ⊢
    simp only [List.map_cons, List.sum_cons]
    by_cases h1 : 0 < e.2
    · have h2 : ¬ e.2 < 0 := by omega
      rw [if_pos h1, if_neg h2, totalAmount_cons]
      simp only []
      omega
    · by_cases h2 : e.2 < 0
      · rw [if_neg h1, if_pos h2, totalAmount_cons, hw]
        simp only []
        omega
      · rw [if_neg h1, if_neg h2]
        omega

/-- After applying the returned transactions, the balance of every participant
is 0: for zero-sum `int64` balances none of which is `math.MinInt64`. -/
theorem MinimizeTransactions_settles (sortSlice : List balance → List balance)
    (hs : SortsByLess sortSlice) (balances : BalanceMap) (hk : DistinctKeys balances)
    (hv : Int64Values balances) (hmin : ∀ e ∈ balances, e.2 ≠ minInt64)
    (hsum : sumValues balances = 0) :
    ∀ e ∈ applyTransactions balances (MinimizeTransactions sortSlice balances), e.2 = 0 := by
  intro e he
  have hk' := DistinctKeys_applyTransactions (MinimizeTransactions sortSlice balances) _ hk
  have hv' := Int64Values_applyTransactions (MinimizeTransactions sortSlice balances) _ hv
  have hget : mapGet (applyTransactions balances (MinimizeTransactions sortSlice balances)) e.1
      = e.2 := mapGet_of_mem hk' (by simpa using he)
  have hform := mapGet_applyTransactions (MinimizeTransactions sortSlice balances) balances e.1
  rw [hget, wrap64_of_isInt64 (hv' e he)] at hform
  have hpd := PositiveAmounts_perm (hs _).1 (PositiveAmounts_debtorsOf balances hv hmin)
  have hpc := PositiveAmounts_perm (hs _).1 (PositiveAmounts_creditorsOf balances hv)
  have htot := totalAmount_sub balances hv hmin
  rw [hsum, ← totalAmount_perm (hs (creditorsOf balances)).1,
    ← totalAmount_perm (hs (debtorsOf balances)).1] at htot
  have hpaid : paidBy e.1 (MinimizeTransactions sortSlice balances)
      = amountOf e.1 (debtorsOf balances) := by
    unfold MinimizeTransactions
    rw [collect_eq]
    simp only []
    rw [settleLoop_paidBy _ _ _ (le_refl _) hpd hpc (by omega), amountOf_perm _ (hs _).1]
  have hrecv : receivedBy e.1 (MinimizeTransactions sortSlice balances)
      = amountOf e.1 (creditorsOf balances) := by
    unfold MinimizeTransactions
    rw [collect_eq]
    simp only []
    rw [settleLoop_receivedBy _ _ _ (le_refl _) hpd hpc (by omega), amountOf_perm _ (hs _).1]
  rw [hpaid, hrecv, amountOf_debtorsOf balances hk, amountOf_creditorsOf balances hk] at hform
  have hint := isInt64_mapGet balances hv e.1
  have hz : mapGet balances e.1 + (if mapGet balances e.1 < 0 then wrap64 (-mapGet balances e.1)
      else 0) - (if 0 < mapGet balances e.1 then mapGet balances e.1 else 0) = 0 := by
    by_cases h1 : mapGet balances e.1 < 0
    · have hne : mapGet balances e.1 ≠ minInt64 := by
        by_cases hmem : e.1 ∈ balances.map Prod.fst
        · obtain ⟨e', he', hfst⟩ := List.mem_map.mp hmem
          have : mapGet balances e.1 = e'.2 :=
            mapGet_of_mem hk (by rw [← hfst]; exact he')
          rw [this]; exact hmin e' he'
        · rw [mapGet_of_not_mem balances e.1 hmem]; decide
      have h2 : ¬ 0 < mapGet balances e.1 := by omega
      rw [if_pos h1, if_neg h2, wrap64_neg hint hne]; omega
    · by_cases h2 : 0 < mapGet balances e.1
      · rw [if_neg h1, if_pos h2]; omega
      · rw [if_neg h1, if_neg h2]; omega
  rw [hz, wrap64_zero] at hform
  exact hform

/-! ## Dependence on enumeration order and on the sort -/

theorem creditorsOf_perm {m m' : BalanceMap} (h : m.Perm m') :
    (creditorsOf m).Perm (creditorsOf m') := by
  unfold creditorsOf; exact (h.filter _).map _

theorem debtorsOf_perm {m m' : BalanceMap} (h : m.Perm m') :
    (debtorsOf m).Perm (debtorsOf m') := by
  unfold debtorsOf; exact (h.filter _).map _

/-- A sorted rearrangement is unique when equal amounts identify the element. -/
theorem sorted_unique {l₁ l₂ : List balance} (hp : l₁.Perm l₂)
    (h₁ : l₁.Pairwise (fun a b => ¬ less b a)) (h₂ : l₂.Pairwise (fun a b => ¬ less b a))
    (hinj : ∀ a ∈ l₁, ∀ b ∈ l₁, a.Amount = b.Amount → a = b) : l₁ = l₂ := by
  refine List.Perm.eq_of_sorted ?_ h₁ h₂ hp
  intro a b ha hb hab hba
  refine hinj a ha b (hp.symm.subset hb) ?_
  unfold less at hab hba
  omega

theorem creditorsOf_amount_inj (m : BalanceMap) (hd : DistinctAmounts m) :
    ∀ a ∈ creditorsOf m, ∀ b ∈ creditorsOf m, a.Amount = b.Amount → a = b := by
  intro a ha b hb hab
  obtain ⟨ha1, ha2⟩ := mem_creditorsOf ha
  obtain ⟨hb1, _⟩ := mem_creditorsOf hb
  have := hd _ ha1 _ hb1 hab (by simp only []; omega)
  cases a; cases b
  simp only [Prod.mk.injEq] at this
  simp only [balance.mk.injEq]
  exact this

theorem debtorsOf_amount_inj (m : BalanceMap) (hv : Int64Values m) (hd : DistinctAmounts m) :
    ∀ a ∈ debtorsOf m, ∀ b ∈ debtorsOf m, a.Amount = b.Amount → a = b := by
  intro a ha b hb hab
  obtain ⟨v, hv1, hv2, hva⟩ := mem_debtorsOf ha
  obtain ⟨w, hw1, _, hwb⟩ := mem_debtorsOf hb
  have hiv := hv _ hv1
  have hiw := hv _ hw1
  have hvw : v = w := by
    rw [hva, hwb] at hab
    unfold isInt64 at hiv hiw
    unfold wrap64 at hab
    simp only [] at hiv hiw
    omega
  have := hd _ hv1 _ hw1 hvw (by simp only []; omega)
  cases a; cases b
  simp only [Prod.mk.injEq] at this
  simp only [balance.mk.injEq]
  simp only [] at hab
  exact ⟨this.1, hab⟩

/-- When no two participants have the same non-zero balance, the result does not
depend on the enumeration order of the map nor on the behaviour of the sort. -/
theorem MinimizeTransactions_order_irrelevant (s₁ s₂ : List balance → List balance)
    (hs₁ : SortsByLess s₁) (hs₂ : SortsByLess s₂) (m₁ m₂ : BalanceMap)
    (hp : m₁.Perm m₂) (hv : Int64Values m₁) (hd : DistinctAmounts m₁) :
    MinimizeTransactions s₁ m₁ = MinimizeTransactions s₂ m₂ := by
  have hc : s₁ (creditorsOf m₁) = s₂ (creditorsOf m₂) := by
    refine sorted_unique (((hs₁ _).1.trans (creditorsOf_perm hp)).trans (hs₂ _).1.symm)
      (hs₁ _).2 (hs₂ _).2 ?_
    intro a ha b hb
    exact creditorsOf_amount_inj m₁ hd a ((hs₁ _).1.subset ha) b ((hs₁ _).1.subset hb)
  have hdb : s₁ (debtorsOf m₁) = s₂ (debtorsOf m₂) := by
    refine sorted_unique (((hs₁ _).1.trans (debtorsOf_perm hp)).trans (hs₂ _).1.symm)
      (hs₁ _).2 (hs₂ _).2 ?_
    intro a ha b hb
    exact debtorsOf_amount_inj m₁ hv hd a ((hs₁ _).1.subset ha) b ((hs₁ _).1.subset hb)
  unfold MinimizeTransactions
  rw [collect_eq, collect_eq]
  simp only [hc, hdb]

/-- C9 (counterexample). The result is not the same for every enumeration order
and every sort: `{1: 200, 2: -100, 3: -100}` enumerated as `1, 2, 3` gives
`[2 -> 1, 3 -> 1]` and enumerated as `1, 3, 2` gives `[3 -> 1, 2 -> 1]`, under
one and the same sort; and for one enumeration two sorts that order the two
equal debts differently give these two different lists. -/
theorem MinimizeTransactions_order_dependent :
    ¬ (∀ (s₁ s₂ : List balance → List balance) (m₁ m₂ : BalanceMap),
        SortsByLess s₁ → SortsByLess s₂ → DistinctKeys m₁ → Int64Values m₁ → m₁.Perm m₂ →
        MinimizeTransactions s₁ m₁ = MinimizeTransactions s₂ m₂) ∧
    MinimizeTransactions insertionSortSlice [(1, 200), (2, -100), (3, -100)]
      = [⟨2, 1, 100⟩, ⟨3, 1, 100⟩] ∧
    MinimizeTransactions insertionSortSlice [(1, 200), (3, -100), (2, -100)]
      = [⟨3, 1, 100⟩, ⟨2, 1, 100⟩] ∧
    MinimizeTransactions reverseSortSlice [(1, 200), (2, -100), (3, -100)]
      = [⟨3, 1, 100⟩, ⟨2, 1, 100⟩] := by
  refine ⟨?_, by decide, by decide, by decide⟩
  intro h
  have h' := h insertionSortSlice insertionSortSlice
    [(1, 200), (2, -100), (3, -100)] [(1, 200), (3, -100), (2, -100)]
    insertionSortSlice_sorts insertionSortSlice_sorts (by decide) (by decide)
    (List.Perm.cons _ (List.Perm.swap _ _ _))
  revert h'
  decide

/-- C9 (amended). `MinimizeTransactions` is a function of the order in which the
map is enumerated and of the order in which the sort leaves equal amounts; when
no two participants have the same non-zero balance, its result is the same for
every enumeration order and every behaviour of the sort. -/
theorem MinimizeTransactions_deterministic (s₁ s₂ : List balance → List balance)
    (hs₁ : SortsByLess s₁) (hs₂ : SortsByLess s₂) (m₁ m₂ : BalanceMap)
    (hp : m₁.Perm m₂) (hv : Int64Values m₁) (hd : DistinctAmounts m₁) :
    MinimizeTransactions s₁ m₁ = MinimizeTransactions s₂ m₂ := by
  have hcp : (s₁ (creditorsOf m₁)).Perm (s₂ (creditorsOf m₂)) :=
    ((hs₁ _).1.trans (creditorsOf_perm hp)).trans (hs₂ _).1.symm
  have hdp : (s₁ (debtorsOf m₁)).Perm (s₂ (debtorsOf m₂)) :=
    ((hs₁ _).1.trans (debtorsOf_perm hp)).trans (hs₂ _).1.symm
  have hc : s₁ (creditorsOf m₁) = s₂ (creditorsOf m₂) :=
    sorted_unique hcp (hs₁ _).2 (hs₂ _).2 (fun a ha b hb =>
      creditorsOf_amount_inj m₁ hd a ((hs₁ _).1.subset ha) b ((hs₁ _).1.subset hb))
  have hdb : s₁ (debtorsOf m₁) = s₂ (debtorsOf m₂) :=
    sorted_unique hdp (hs₁ _).2 (hs₂ _).2 (fun a ha b hb =>
      debtorsOf_amount_inj m₁ hv hd a ((hs₁ _).1.subset ha) b ((hs₁ _).1.subset hb))
  unfold MinimizeTransactions
  rw [collect_eq, collect_eq]
  simp only [hc, hdb]

/-- Instance of `MinimizeTransactions_deterministic`: `{1: 500, 2: -200, 3: -300}`
enumerated in two orders and sorted by two sorts. -/
theorem MinimizeTransactions_deterministic_witness :
    MinimizeTransactions insertionSortSlice [(1, 500), (2, -200), (3, -300)]
      = MinimizeTransactions reverseSortSlice [(3, -300), (1, 500), (2, -200)] :=
  MinimizeTransactions_deterministic insertionSortSlice reverseSortSlice
    insertionSortSlice_sorts reverseSortSlice_sorts
    [(1, 500), (2, -200), (3, -300)] [(3, -300), (1, 500), (2, -200)]
    (by decide) (by decide) (by decide)

/-! ## Behaviour at `math.MinInt64` -/

/-- C1 (failing input). On the zero-sum mapping `{1: -2^63, 2: 2^62 + 1, 3: 2^62 - 1}`
the debt of participant 1 is stored as `-2^63` (its negation overflows), the only
transaction returned is `1 -> 2` with amount `-2^63`, and applying it leaves
participants 2 and 3 with non-zero balances, whatever the enumeration order of
the map and the behaviour of the sort. -/
theorem MinimizeTransactions_unsettled (sortSlice : List balance → List balance)
    (hs : SortsByLess sortSlice) (m : BalanceMap) (hm : m.Perm unsettledInput) :
    DistinctKeys unsettledInput ∧ Int64Values unsettledInput ∧ sumValues unsettledInput = 0 ∧
    MinimizeTransactions sortSlice m = [⟨1, 2, minInt64⟩] ∧
    applyTransactions unsettledInput (MinimizeTransactions sortSlice m)
      = [(1, 0), (2, -2 ^ 62 + 1), (3, 2 ^ 62 - 1)] ∧
    ¬ (∀ e ∈ applyTransactions unsettledInput (MinimizeTransactions sortSlice m), e.2 = 0) := by
  have h : MinimizeTransactions sortSlice m = [⟨1, 2, minInt64⟩] := by
    rw [MinimizeTransactions_order_irrelevant sortSlice insertionSortSlice hs
      insertionSortSlice_sorts m unsettledInput hm
      (fun e he => (by decide : Int64Values unsettledInput) e (hm.subset he))
      (fun e he e' he' => (by decide : DistinctAmounts unsettledInput) e (hm.subset he) e'
        (hm.subset he'))]
    decide
  rw [h]
  exact ⟨by decide, by decide, by decide, rfl, by decide, by decide⟩

/-- Instance of `MinimizeTransactions_unsettled` for insertion sort and the
enumeration order `1, 2, 3`. -/
theorem MinimizeTransactions_unsettled_witness :
    SortsByLess insertionSortSlice ∧
    MinimizeTransactions insertionSortSlice unsettledInput = [⟨1, 2, minInt64⟩] :=
  ⟨insertionSortSlice_sorts,
    (MinimizeTransactions_unsettled insertionSortSlice insertionSortSlice_sorts
      unsettledInput (List.Perm.refl _)).2.2.2.1⟩

/-- C10 (failing input). On `{1: -2^63, 2: -1, 3: 5}` the largest debtor is
participant 1, but its debt is stored as `-2^63` and sorts last: the first
transaction is `2 -> 3` with amount 1, not `1 -> 3`, and the payers occur in
increasing order of absolute debt (1, then `2^63`), whatever the enumeration
order of the map and the behaviour of the sort. -/
theorem MinimizeTransactions_misordered (sortSlice : List balance → List balance)
    (hs : SortsByLess sortSlice) (m : BalanceMap) (hm : m.Perm misorderedInput) :
    MinimizeTransactions sortSlice m = [⟨2, 3, 1⟩, ⟨1, 3, minInt64⟩] ∧
    payerDebts misorderedInput (MinimizeTransactions sortSlice m) = [1, 2 ^ 63] ∧
    ¬ (payerDebts misorderedInput (MinimizeTransactions sortSlice m)).Pairwise (· ≥ ·) := by
  have h : MinimizeTransactions sortSlice m = [⟨2, 3, 1⟩, ⟨1, 3, minInt64⟩] := by
    rw [MinimizeTransactions_order_irrelevant sortSlice insertionSortSlice hs
      insertionSortSlice_sorts m misorderedInput hm
      (fun e he => (by decide : Int64Values misorderedInput) e (hm.subset he))
      (fun e he e' he' => (by decide : DistinctAmounts misorderedInput) e (hm.subset he) e'
        (hm.subset he'))]
    decide
  rw [h]
  exact ⟨rfl, by decide, by decide⟩

/-- Instance of `MinimizeTransactions_misordered` for insertion sort and the
enumeration order `1, 2, 3`. -/
theorem MinimizeTransactions_misordered_witness :
    SortsByLess insertionSortSlice ∧
    MinimizeTransactions insertionSortSlice misorderedInput = [⟨2, 3, 1⟩, ⟨1, 3, minInt64⟩] :=
  ⟨insertionSortSlice_sorts,
    (MinimizeTransactions_misordered insertionSortSlice insertionSortSlice_sorts
      misorderedInput (List.Perm.refl _)).1⟩

/-! ## Number of transactions against any settlement -/

theorem mapGet_foldl_mapAdd (es : List Expense) (m : BalanceMap) (k : Nat) :
    wrap64 (mapGet (es.foldl (fun m e => mapAdd m e.PaidBy e.Amount) m) k) =
      wrap64 (mapGet m k + paidTotal k es) := by
  induction es generalizing m with
  | nil => simp [paidTotal]
  | cons e es ih =>
    rw [List.foldl_cons, ih]
    unfold mapAdd paidTotal
    rw [mapGet_mapModify]
    by_cases h : e.PaidBy = k
    · simp only [h, if_true, List.filter_cons, decide_True, List.map_cons, List.sum_cons]
      unfold wrap64; omega
    · simp only [h, if_false, List.filter_cons, decide_False]
      simp

theorem mapGet_foldl_mapSub (ss : List ExpenseSplit) (m : BalanceMap) (k : Nat) :
    wrap64 (mapGet (ss.foldl (fun m s => mapSub m s.UserID s.AmountOwed) m) k) =
      wrap64 (mapGet m k - owedTotal k ss) := by
  induction ss generalizing m with
  | nil => simp [owedTotal]
  | cons s ss ih =>
    rw [List.foldl_cons, ih]
    unfold mapSub owedTotal
    rw [mapGet_mapModify]
    by_cases h : s.UserID = k
    · simp only [h, if_true, List.filter_cons, decide_True, List.map_cons, List.sum_cons]
      unfold wrap64; omega
    · simp only [h, if_false, List.filter_cons, decide_False]
      simp

theorem Int64Values_foldl_mapAdd (es : List Expense) (m : BalanceMap) (h : Int64Values m) :
    Int64Values (es.foldl (fun m e => mapAdd m e.PaidBy e.Amount) m) := by
  induction es generalizing m with
  | nil => exact h
  | cons e es ih =>
    rw [List.foldl_cons]
    exact ih _ (Int64Values_mapModify _ (fun x => isInt64_wrap64 _) _ _ h)

theorem Int64Values_foldl_mapSub (ss : List ExpenseSplit) (m : BalanceMap) (h : Int64Values m) :
    Int64Values (ss.foldl (fun m s => mapSub m s.UserID s.AmountOwed) m) := by
  induction ss generalizing m with
  | nil => exact h
  | cons s ss ih =>
    rw [List.foldl_cons]
    exact ih _ (Int64Values_mapModify _ (fun x => isInt64_wrap64 _) _ _ h)

theorem DistinctKeys_foldl_mapAdd (es : List Expense) (m : BalanceMap) (h : DistinctKeys m) :
    DistinctKeys (es.foldl (fun m e => mapAdd m e.PaidBy e.Amount) m) := by
  induction es generalizing m with
  | nil => exact h
  | cons e es ih =>
    rw [List.foldl_cons]
    exact ih _ (DistinctKeys_mapModify _ _ _ h)

theorem DistinctKeys_foldl_mapSub (ss : List ExpenseSplit) (m : BalanceMap) (h : DistinctKeys m) :
    DistinctKeys (ss.foldl (fun m s => mapSub m s.UserID s.AmountOwed) m) := by
  induction ss generalizing m with
  | nil => exact h
  | cons s ss ih =>
    rw [List.foldl_cons]
    exact ih _ (DistinctKeys_mapModify _ _ _ h)

theorem mem_keys_foldl_mapAdd (es : List Expense) (m : BalanceMap) (k : Nat) :
    k ∈ (es.foldl (fun m e => mapAdd m e.PaidBy e.Amount) m).map Prod.fst ↔
      k ∈ m.map Prod.fst ∨ ∃ e ∈ es, e.PaidBy = k := by
  induction es generalizing m with
  | nil => simp
  | cons e es ih =>
    rw [List.foldl_cons, ih]
    unfold mapAdd
    rw [mem_keys_mapModify]
    simp only [List.mem_cons, exists_eq_or_imp]
    constructor
    · rintro ((h | h) | h)
      · exact Or.inr (Or.inl h.symm)
      · exact Or.inl h
      · exact Or.inr (Or.inr h)
    · rintro (h | h | h)
      · exact Or.inl (Or.inr h)
      · exact Or.inl (Or.inl h.symm)
      · exact Or.inr h

theorem mem_keys_foldl_mapSub (ss : List ExpenseSplit) (m : BalanceMap) (k : Nat) :
    k ∈ (ss.foldl (fun m s => mapSub m s.UserID s.AmountOwed) m).map Prod.fst ↔
      k ∈ m.map Prod.fst ∨ ∃ s ∈ ss, s.UserID = k := by
  induction ss generalizing m with
  | nil => simp
  | cons s ss ih =>
    rw [List.foldl_cons, ih]
    unfold mapSub
    rw [mem_keys_mapModify]
    simp only [List.mem_cons, exists_eq_or_imp]
    constructor
    · rintro ((h | h) | h)
      · exact Or.inr (Or.inl h.symm)
      · exact Or.inl h
      · exact Or.inr (Or.inr h)
    · rintro (h | h | h)
      · exact Or.inl (Or.inr h)
      · exact Or.inl (Or.inl h.symm)
      · exact Or.inr h

theorem computeNetBalances_distinctKeys (es : List Expense) (ss : List ExpenseSplit) :
    DistinctKeys (computeNetBalances es ss) := by
  unfold computeNetBalances
  exact DistinctKeys_foldl_mapSub _ _ (DistinctKeys_foldl_mapAdd _ _ List.nodup_nil)

theorem computeNetBalances_int64 (es : List Expense) (ss : List ExpenseSplit) :
    Int64Values (computeNetBalances es ss) := by
  unfold computeNetBalances
  exact Int64Values_foldl_mapSub _ _
    (Int64Values_foldl_mapAdd _ _ (fun e he => by simp at he))

theorem computeNetBalances_keys (es : List Expense) (ss : List ExpenseSplit) (k : Nat) :
    k ∈ (computeNetBalances es ss).map Prod.fst ↔
      (∃ e ∈ es, e.PaidBy = k) ∨ (∃ s ∈ ss, s.UserID = k) := by
  unfold computeNetBalances
  simp only []
  rw [mem_keys_foldl_mapSub, mem_keys_foldl_mapAdd]
  simp

/-- The balance of `k` is paid minus owed, reduced to the `int64` range. -/
theorem computeNetBalances_get (es : List Expense) (ss : List ExpenseSplit) (k : Nat) :
    mapGet (computeNetBalances es ss) k = wrap64 (paidTotal k es - owedTotal k ss) := by
  have hint := isInt64_mapGet _ (computeNetBalances_int64 es ss) k
  rw [← wrap64_of_isInt64 hint]
  unfold computeNetBalances
  simp only []
  rw [mapGet_foldl_mapSub, ← wrap64_sub_left, mapGet_foldl_mapAdd, wrap64_sub_left]
  simp [mapGet]

/-- C8 (counterexample). Two expenses of `2^62` paid by participant 1 leave the
value `-2^63` at key 1, while the amounts that participant 1 paid minus the
amounts it owes is `2^63`: the running balance overflowed. -/
theorem computeNetBalances_overflow :
    mapGet (computeNetBalances largeExpenses largeSplits) 1 = -2 ^ 63 ∧
    paidTotal 1 largeExpenses - owedTotal 1 largeSplits = 2 ^ 63 ∧
    ¬ (∀ (es : List Expense) (ss : List ExpenseSplit) (k : Nat),
        (∀ e ∈ es, isInt64 e.Amount) → (∀ s ∈ ss, isInt64 s.AmountOwed) →
        k ∈ (computeNetBalances es ss).map Prod.fst →
        mapGet (computeNetBalances es ss) k = paidTotal k es - owedTotal k ss) := by
  refine ⟨by decide, by decide, ?_⟩
  intro h
  have h' := h largeExpenses largeSplits 1 (by decide) (by decide) (by decide)
  revert h'
  decide

/-- C8 (amended). For every list of expenses and list of splits, the mapping
built by `computeNetBalances` has distinct keys, has a key exactly for the
participants that are the payer of some expense or the participant of some
split, and the value at each key equals (sum of the amounts of the expenses
that participant paid) minus (sum of the owed amounts of that participant's
splits) reduced to the signed 64-bit range, hence exactly that difference
whenever the difference is an `int64`; zero expenses and zero splits give the
empty mapping, and 1 paying 300 split 100/100/100 among 1, 2, 3 gives
`{1: 200, 2: -100, 3: -100}`. -/
theorem computeNetBalances_spec (es : List Expense) (ss : List ExpenseSplit) :
    DistinctKeys (computeNetBalances es ss) ∧
    (∀ k, k ∈ (computeNetBalances es ss).map Prod.fst ↔
      (∃ e ∈ es, e.PaidBy = k) ∨ (∃ s ∈ ss, s.UserID = k)) ∧
    (∀ e ∈ computeNetBalances es ss,
      e.2 = wrap64 (paidTotal e.1 es - owedTotal e.1 ss) ∧
      (isInt64 (paidTotal e.1 es - owedTotal e.1 ss) →
        e.2 = paidTotal e.1 es - owedTotal e.1 ss)) ∧
    computeNetBalances [] [] = [] ∧
    computeNetBalances [⟨1, 1, 1, 300⟩] [⟨1, 1, 100⟩, ⟨1, 2, 100⟩, ⟨1, 3, 100⟩]
      = [(1, 200), (2, -100), (3, -100)] := by
  refine ⟨computeNetBalances_distinctKeys es ss, computeNetBalances_keys es ss, ?_, rfl,
    by decide⟩
  intro e he
  have h : e.2 = wrap64 (paidTotal e.1 es - owedTotal e.1 ss) := by
    rw [← computeNetBalances_get,
      mapGet_of_mem (computeNetBalances_distinctKeys es ss) (by simpa using he)]
  exact ⟨h, fun hint => by rw [h, wrap64_of_isInt64 hint]⟩

/-! ## Zero sum of the aggregated balances -/

theorem sum_map_ite_eq (ks : List Nat) (a : Nat) (v : Int) (hnd : ks.Nodup) (ha : a ∈ ks) :
    (ks.map (fun k => if a = k then v else 0)).sum = v := by
  induction ks with
  | nil => simp at ha
  | cons k ks ih =>
    rw [List.nodup_cons] at hnd
    rw [List.map_cons, List.sum_cons]
    by_cases h : a = k
    · subst h
      have hz : (ks.map (fun k => if a = k then v else 0)).sum = 0 := by
        apply List.sum_eq_zero
        intro x hx
        obtain ⟨k, hk, rfl⟩ := List.mem_map.mp hx
        have : a ≠ k := fun hh => hnd.1 (hh ▸ hk)
        simp [this]
      rw [hz]; simp
    · rw [if_neg h, zero_add]
      exact ih hnd.2 ((List.mem_cons.mp ha).resolve_left h)

/-- Summing per key and then over all keys is summing over all records. -/
theorem sum_regroup {α : Type} (key : α → Nat) (val : α → Int) (xs : List α) (ks : List Nat)
    (hnd : ks.Nodup) (hmem : ∀ x ∈ xs, key x ∈ ks) :
    (ks.map (fun k => ((xs.filter (fun x => decide (key x = k))).map val).sum)).sum
      = (xs.map val).sum := by
  induction xs with
  | nil => simp
  | cons x xs ih =>
    have hx : key x ∈ ks := hmem x (List.mem_cons_self _ _)
    have ih' := ih (fun y hy => hmem y (List.mem_cons_of_mem _ hy))
    have hstep : ∀ k, ((List.filter (fun x => decide (key x = k)) (x :: xs)).map val).sum
        = (if key x = k then val x else 0)
          + ((List.filter (fun x => decide (key x = k)) xs).map val).sum := by
      intro k
      by_cases h : key x = k <;> simp [List.filter_cons, h]
    simp only [hstep]
    rw [List.sum_map_add, sum_map_ite_eq ks (key x) (val x) hnd hx, ih']
    simp

theorem sumValues_eq (m : BalanceMap) (hk : DistinctKeys m) :
    sumValues m = ((m.map Prod.fst).map (mapGet m)).sum := by
  unfold sumValues
  rw [List.map_map]
  congr 1
  apply List.map_congr_left
  intro e he
  exact (mapGet_of_mem hk (by simpa using he)).symm

theorem wrap64_sum_map_wrap64 (ks : List Nat) (f : Nat → Int) :
    wrap64 ((ks.map (fun k => wrap64 (f k))).sum) = wrap64 ((ks.map f).sum) := by
  induction ks with
  | nil => rfl
  | cons k ks ih =>
    simp only [List.map_cons, List.sum_cons]
    rw [wrap64_add_left, ← wrap64_add_right, ih, wrap64_add_right]

theorem sum_map_sub_int (ks : List Nat) (f g : Nat → Int) :
    (ks.map (fun k => f k - g k)).sum = (ks.map f).sum - (ks.map g).sum := by
  induction ks with
  | nil => rfl
  | cons k ks ih => simp only [List.map_cons, List.sum_cons, ih]; omega

/-- On a consistent ledger the exact nets of all participants sum to zero. -/
theorem sum_nets_eq_zero (es : List Expense) (ss : List ExpenseSplit)
    (h : ConsistentLedger es ss) :
    (((computeNetBalances es ss).map Prod.fst).map
      (fun k => paidTotal k es - owedTotal k ss)).sum = 0 := by
  obtain ⟨hid, hbel, htot⟩ := h
  have hnd := computeNetBalances_distinctKeys es ss
  have hpaid := sum_regroup Expense.PaidBy Expense.Amount es
    ((computeNetBalances es ss).map Prod.fst) hnd
    (fun e he => (computeNetBalances_keys es ss e.PaidBy).mpr (Or.inl ⟨e, he, rfl⟩))
  have howed := sum_regroup ExpenseSplit.UserID ExpenseSplit.AmountOwed ss
    ((computeNetBalances es ss).map Prod.fst) hnd
    (fun s hs => (computeNetBalances_keys es ss s.UserID).mpr (Or.inr ⟨s, hs, rfl⟩))
  have hsplit := sum_regroup ExpenseSplit.ExpenseID ExpenseSplit.AmountOwed ss
    (es.map Expense.ID) hid hbel
  have hexp : ((es.map Expense.ID).map (fun id =>
      ((ss.filter (fun s => decide (s.ExpenseID = id))).map ExpenseSplit.AmountOwed).sum)).sum
      = (es.map Expense.Amount).sum := by
    rw [List.map_map]
    congr 1
    apply List.map_congr_left
    intro e he
    exact htot e he
  rw [sum_map_sub_int _ (fun k => paidTotal k es) (fun k => owedTotal k ss)]
  unfold paidTotal owedTotal
  rw [hpaid, howed, ← hsplit, hexp]
  simp

/-- C2 (counterexample). Two expenses of `2^62` paid by participant 1 and owed in
full by participant 2 form a consistent ledger, but the two balances are both
`-2^63` (the payer's balance overflowed) and sum to `-2^64`, not 0. -/
theorem computeNetBalances_sum_nonzero :
    ConsistentLedger largeExpenses largeSplits ∧
    (∀ e ∈ largeExpenses, 0 < e.Amount ∧ isInt64 e.Amount) ∧
    computeNetBalances largeExpenses largeSplits = [(1, -2 ^ 63), (2, -2 ^ 63)] ∧
    sumValues (computeNetBalances largeExpenses largeSplits) = -2 ^ 64 ∧
    sumValues (computeNetBalances largeExpenses largeSplits) ≠ 0 := by
  refine ⟨by decide, by decide, by decide, by decide, by decide⟩

/-- C2 (amended). For every list of expenses and list of splits of one group in
which the owed amounts of each expense's splits sum to that expense's amount,
the values of the mapping built by `computeNetBalances` sum to 0 in 64-bit
arithmetic, and to exactly 0 whenever every participant's amount paid minus
amount owed is an `int64`. -/
theorem computeNetBalances_sum_zero (es : List Expense) (ss : List ExpenseSplit)
    (h : ConsistentLedger es ss) :
    wrap64 (sumValues (computeNetBalances es ss)) = 0 ∧
    ((∀ k, isInt64 (paidTotal k es - owedTotal k ss)) →
      sumValues (computeNetBalances es ss) = 0) := by
  have hsum := sum_nets_eq_zero es ss h
  have heq := sumValues_eq _ (computeNetBalances_distinctKeys es ss)
  have hget : mapGet (computeNetBalances es ss)
      = fun k => wrap64 (paidTotal k es - owedTotal k ss) :=
    funext (computeNetBalances_get es ss)
  constructor
  · rw [heq, hget, wrap64_sum_map_wrap64, hsum]
    rfl
  · intro hint
    rw [heq, ← hsum]
    congr 1
    apply List.map_congr_left
    intro k _
    rw [computeNetBalances_get, wrap64_of_isInt64 (hint k)]

/-- Instance of `computeNetBalances_sum_zero`: 1 pays 300, split 100/100/100
among 1, 2, 3; every net is an `int64` and the balances sum to exactly 0. -/
theorem computeNetBalances_sum_zero_witness :
    ConsistentLedger [⟨1, 1, 1, 300⟩] [⟨1, 1, 100⟩, ⟨1, 2, 100⟩, ⟨1, 3, 100⟩] ∧
    (∀ k, isInt64 (paidTotal k [⟨1, 1, 1, 300⟩]
      - owedTotal k [⟨1, 1, 100⟩, ⟨1, 2, 100⟩, ⟨1, 3, 100⟩])) ∧
    sumValues (computeNetBalances [⟨1, 1, 1, 300⟩]
      [⟨1, 1, 100⟩, ⟨1, 2, 100⟩, ⟨1, 3, 100⟩]) = 0 :=
  have hint : ∀ k, isInt64 (paidTotal k [⟨1, 1, 1, 300⟩]
      - owedTotal k [⟨1, 1, 100⟩, ⟨1, 2, 100⟩, ⟨1, 3, 100⟩]) := by
    intro k
    unfold isInt64 paidTotal owedTotal
    simp only [List.filter_cons, List.filter_nil]
    split_ifs <;> simp
  ⟨by decide, hint, (computeNetBalances_sum_zero [⟨1, 1, 1, 300⟩]
    [⟨1, 1, 100⟩, ⟨1, 2, 100⟩, ⟨1, 3, 100⟩] (by decide)).2 hint⟩

/-! ## The split computation of `AddExpense` -/

theorem owedAmounts_cons (s : ExpenseSplit) (l : List ExpenseSplit) :
    owedAmounts (s :: l) = s.AmountOwed :: owedAmounts l := rfl

/-- Sum of an equal split: every member owes `baseShare`, and the members whose
index is below `remainder` owe one more. -/
theorem equalSplits_sum (expenseID : Nat) (baseShare remainder : Int)
    (hw : 0 < remainder → wrap64 (baseShare + 1) = baseShare + 1)
    (idx : Nat) (ms : List Nat) :
    (owedAmounts (equalSplits expenseID baseShare remainder idx ms)).sum
      = baseShare * ms.length
        + (min remainder ((idx : Int) + ms.length) - min remainder (idx : Int)) := by
  induction ms generalizing idx with
  | nil => simp [equalSplits, owedAmounts]
  | cons m ms ih =>
    unfold equalSplits
    simp only [owedAmounts_cons, List.sum_cons, ih (idx + 1), List.length_cons]
    push_cast
    by_cases h : (idx : Int) < remainder
    · rw [if_pos h, hw (by omega)]
      have e1 : baseShare * ((ms.length : Int) + 1) = baseShare * ms.length + baseShare := by ring
      rw [e1]
      omega
    · rw [if_neg h]
      have e1 : baseShare * ((ms.length : Int) + 1) = baseShare * ms.length + baseShare := by ring
      rw [e1]
      omega

/-- The equal split of a positive `int64` amount sums exactly to the amount. -/
theorem equalSplits_total (expenseID : Nat) (amount : Int) (members : List Nat)
    (ha : 0 < amount) (hi : isInt64 amount) (hm : members ≠ []) :
    (owedAmounts (equalSplits expenseID (Int.tdiv amount members.length)
      (Int.tmod amount members.length) 0 members)).sum = amount := by
  have hn : (0 : Int) < members.length := by
    have := List.length_pos.mpr hm
    omega
  have hdiv : Int.tdiv amount members.length = amount / (members.length : Int) :=
    Int.tdiv_eq_ediv (le_of_lt ha) (le_of_lt hn)
  have hmod : Int.tmod amount members.length = amount % (members.length : Int) :=
    Int.tmod_eq_emod (le_of_lt ha) (le_of_lt hn)
  have h1 := Int.emod_nonneg amount (ne_of_gt hn)
  have h2 := Int.emod_lt_of_pos amount hn
  have h3 := Int.emod_add_ediv amount members.length
  have h4 : 0 ≤ amount / (members.length : Int) := Int.ediv_nonneg (le_of_lt ha) (le_of_lt hn)
  have h5 : amount / (members.length : Int) ≤ (members.length : Int) * (amount / members.length) :=
    le_mul_of_one_le_left h4 (by omega)
  rw [hdiv, hmod]
  rw [equalSplits_sum]
  · have e : amount / (members.length : Int) * members.length
        = (members.length : Int) * (amount / members.length) := by ring
    rw [e]
    simp only [Nat.cast_zero, zero_add]
    omega
  · intro hr
    apply wrap64_of_isInt64
    unfold isInt64 at hi ⊢
    omega

/-- The percentage loop keeps `allocated` plus the shares still to come equal to
the amount, in 64-bit arithmetic: the last share absorbs the remainder. -/
theorem percentageSplits_sum (expenseID : Nat) (amount : Int) (n : Nat)
    (idx : Nat) (allocated : Int) (ss : List splitEntry)
    (hne : ss ≠ []) (hlen : idx + ss.length = n) :
    wrap64 (allocated + (owedAmounts (percentageSplits expenseID amount n idx allocated ss)).sum)
      = wrap64 amount := by
  induction ss generalizing idx allocated with
  | nil => exact absurd rfl hne
  | cons s ss ih =>
    cases ss with
    | nil =>
      have hidx : idx = n - 1 := by simp only [List.length_cons, List.length_nil] at hlen; omega
      have hsum : (owedAmounts (percentageSplits expenseID amount n idx allocated [s])).sum
          = wrap64 (amount - allocated) := by
        simp [percentageSplits, hidx, owedAmounts]
      rw [hsum]
      unfold wrap64; omega
    | cons s' ss' =>
      have hidx : ¬ idx = n - 1 := by simp only [List.length_cons] at hlen; omega
      have key := ih (idx + 1)
        (wrap64 (allocated + Int.tdiv (wrap64 (amount * s.Percentage)) 100))
        (by simp) (by simp only [List.length_cons] at hlen ⊢; omega)
      rw [percentageSplits]
      simp only [if_neg hidx, owedAmounts_cons, List.sum_cons]
      rw [wrap64_add_left] at key
      rw [← key]
      congr 1
      ring

theorem totalOf_eq (field : splitEntry → Int) (splits : List splitEntry) :
    totalOf field splits = wrap64 ((splits.map field).sum) := by
  unfold totalOf
  have h : ∀ (l : List splitEntry) (acc : Int),
      l.foldl (fun total s => wrap64 (total + field s)) (wrap64 acc)
        = wrap64 (acc + (l.map field).sum) := by
    intro l
    induction l with
    | nil => intro acc; simp
    | cons s l ih =>
      intro acc
      rw [List.foldl_cons, wrap64_add_left, ih]
      simp only [List.map_cons, List.sum_cons]
      congr 1
      ring
  have := h splits 0
  rw [wrap64_zero, zero_add] at this
  exact this

/-- With non-negative percentages and `amount * 100` in range, no step of the
percentage loop overflows and the shares add up exactly. -/
theorem percentageSplits_exact (expenseID : Nat) (amount : Int) (n : Nat)
    (ha : 0 < amount) (hb : amount * 100 < 2 ^ 63)
    (idx : Nat) (allocated : Int) (ss : List splitEntry)
    (hne : ss ≠ []) (hlen : idx + ss.length = n)
    (hpct : ∀ s ∈ ss, 0 ≤ s.Percentage) (h0 : 0 ≤ allocated)
    (hinv : allocated * 100 + amount * (ss.map splitEntry.Percentage).sum ≤ amount * 100) :
    allocated + (owedAmounts (percentageSplits expenseID amount n idx allocated ss)).sum
      = amount := by
  induction ss generalizing idx allocated with
  | nil => exact absurd rfl hne
  | cons s ss ih =>
    have hp0 : 0 ≤ s.Percentage := hpct s (List.mem_cons_self _ _)
    have hX : 0 ≤ amount * s.Percentage := mul_nonneg (le_of_lt ha) hp0
    have hP' : 0 ≤ (ss.map splitEntry.Percentage).sum :=
      List.sum_nonneg (fun x hx => by
        obtain ⟨s', hs', rfl⟩ := List.mem_map.mp hx
        exact hpct s' (List.mem_cons_of_mem _ hs'))
    have hY : 0 ≤ amount * (ss.map splitEntry.Percentage).sum := mul_nonneg (le_of_lt ha) hP'
    simp only [List.map_cons, List.sum_cons, mul_add] at hinv
    cases ss with
    | nil =>
      have hidx : idx = n - 1 := by simp only [List.length_cons, List.length_nil] at hlen; omega
      have hsum : (owedAmounts (percentageSplits expenseID amount n idx allocated [s])).sum
          = wrap64 (amount - allocated) := by
        simp [percentageSplits, hidx, owedAmounts]
      rw [hsum, wrap64_of_isInt64 (by unfold isInt64; omega)]
      omega
    | cons s' ss' =>
      have hidx : ¬ idx = n - 1 := by simp only [List.length_cons] at hlen; omega
      have hw1 : wrap64 (amount * s.Percentage) = amount * s.Percentage :=
        wrap64_of_isInt64 (by unfold isInt64; omega)
      have hdiv : Int.tdiv (amount * s.Percentage) 100 = amount * s.Percentage / 100 :=
        Int.tdiv_eq_ediv hX (by norm_num)
      have hs1 : 0 ≤ amount * s.Percentage / 100 := Int.ediv_nonneg hX (by norm_num)
      have hs2 : amount * s.Percentage / 100 * 100 ≤ amount * s.Percentage :=
        Int.ediv_mul_le _ (by norm_num)
      have hw2 : wrap64 (allocated + amount * s.Percentage / 100)
          = allocated + amount * s.Percentage / 100 :=
        wrap64_of_isInt64 (by unfold isInt64; omega)
      have key := ih (idx + 1) (allocated + amount * s.Percentage / 100)
        (by simp) (by simp only [List.length_cons] at hlen ⊢; omega)
        (fun x hx => hpct x (List.mem_cons_of_mem _ hx)) (by omega) (by omega)
      rw [percentageSplits]
      simp only [if_neg hidx, owedAmounts_cons, List.sum_cons, hw1, hdiv, hw2]
      omega

/-- C7 (failing input). `AddExpense` accepts the amount `2^63 - 1` split by the
percentages 100 and 0 (they sum to 100); the product `amount * 100` overflows,
the stored owed amounts are `-1` and `-2^63`, and they sum to `-2^63 - 1`, not
to the amount, although the shares `2^63 - 1` and `0` that the percentages ask
for are both `int64` and sum to the amount.  The exact split has the same
defect in its validation: for the amount 5 it accepts the amounts
`2^62, 2^62, 2^62, 2^62, 5`, whose `int64` total wraps to 5, and stores owed
amounts that sum to `2^64 + 5`. -/
theorem AddExpense_sum_overflow :
    0 < maxInt64 ∧ isInt64 maxInt64 ∧
    (largePercentageSplits.map splitEntry.Percentage).sum = 100 ∧
    AddExpense 7 maxInt64 "percentage" [1, 2] largePercentageSplits
      = some [⟨7, 1, -1⟩, ⟨7, 2, -2 ^ 63⟩] ∧
    (owedAmounts [⟨7, 1, -1⟩, ⟨7, 2, -2 ^ 63⟩]).sum = -2 ^ 63 - 1 ∧
    (owedAmounts [⟨7, 1, -1⟩, ⟨7, 2, -2 ^ 63⟩]).sum ≠ maxInt64 ∧
    (isInt64 maxInt64 ∧ isInt64 0 ∧
      (owedAmounts [⟨7, 1, maxInt64⟩, ⟨7, 2, 0⟩]).sum = maxInt64) ∧
    (AddExpense 8 5 "exact" [1, 2, 3, 4, 5] wrappedExactSplits
      = some [⟨8, 1, 2 ^ 62⟩, ⟨8, 2, 2 ^ 62⟩, ⟨8, 3, 2 ^ 62⟩, ⟨8, 4, 2 ^ 62⟩, ⟨8, 5, 5⟩] ∧
      (owedAmounts [⟨8, 1, 2 ^ 62⟩, ⟨8, 2, 2 ^ 62⟩, ⟨8, 3, 2 ^ 62⟩, ⟨8, 4, 2 ^ 62⟩,
        ⟨8, 5, 5⟩]).sum = 2 ^ 64 + 5) := by
  refine ⟨by decide, by decide, by decide, by decide, by decide, by decide,
    ⟨by decide, by decide, by decide⟩, by decide, by decide⟩

/-- For every expense that `AddExpense` accepts, the owed amounts
of the splits it creates sum to the expense amount in 64-bit arithmetic, hence
exactly whenever their exact sum is an `int64`; the sum is exact for every
equal split, and for every percentage split with non-negative percentages that
sum to 100 and `amount * 100 < 2^63`.  For amount 100 split by percentages
33/33/34 the owed amounts are `[33, 33, 34]`. -/
theorem AddExpense_sum (expenseID : Nat) (amount : Int) (splitType : String)
    (members : List Nat) (splits : List splitEntry) (out : List ExpenseSplit)
    (hi : isInt64 amount)
    (h : AddExpense expenseID amount splitType members splits = some out) :
    wrap64 ((owedAmounts out).sum) = amount ∧
    (isInt64 ((owedAmounts out).sum) → (owedAmounts out).sum = amount) ∧
    (splitType = "equal" → (owedAmounts out).sum = amount) ∧
    (splitType = "percentage" → (∀ s ∈ splits, 0 ≤ s.Percentage) →
      (splits.map splitEntry.Percentage).sum = 100 → amount * 100 < 2 ^ 63 →
      (owedAmounts out).sum = amount) ∧
    (AddExpense expenseID 100 "percentage" [1, 2, 3] [⟨1, 33, 0⟩, ⟨2, 33, 0⟩, ⟨3, 34, 0⟩]).map
      owedAmounts = some [33, 33, 34] := by
  unfold AddExpense at h
  by_cases h1 : amount ≤ 0
  · simp [h1] at h
  rw [if_neg h1] at h
  by_cases h2 : splitType = ""
  · simp [h2] at h
  rw [if_neg h2] at h
  by_cases h3 : (members.length : Int) = 0
  · simp [h3] at h
  rw [if_neg h3] at h
  have hpos : 0 < amount := by omega
  have hmem : members ≠ [] := by
    intro hh; subst hh; simp at h3
  have hex : (AddExpense expenseID 100 "percentage" [1, 2, 3]
      [⟨1, 33, 0⟩, ⟨2, 33, 0⟩, ⟨3, 34, 0⟩]).map owedAmounts = some [33, 33, 34] := by
    simp [AddExpense, totalOf, percentageSplits, owedAmounts]
    decide
  by_cases h4 : splitType = "equal" ∨ splitType = ""
  · rw [if_pos h4] at h
    have hout : out = equalSplits expenseID (Int.tdiv amount members.length)
        (Int.tmod amount members.length) 0 members := by
      simp only [Option.some.injEq] at h; exact h.symm
    have hsum : (owedAmounts out).sum = amount := by
      rw [hout]; exact equalSplits_total expenseID amount members hpos hi hmem
    have hne : splitType ≠ "percentage" := by
      rcases h4 with h4 | h4 <;> rw [h4] <;> decide
    exact ⟨by rw [hsum]; exact wrap64_of_isInt64 hi, fun _ => hsum, fun _ => hsum,
      fun hp => absurd hp hne, hex⟩
  rw [if_neg h4] at h
  have hneq : splitType ≠ "equal" := fun hh => h4 (Or.inl hh)
  by_cases h5 : splitType = "percentage"
  · rw [if_pos h5] at h
    by_cases h6 : splits.length = 0
    · simp [h6] at h
    rw [if_neg h6] at h
    by_cases h7 : totalOf splitEntry.Percentage splits ≠ 100
    · simp [h7] at h
    rw [if_neg h7] at h
    have hout : out = percentageSplits expenseID amount splits.length 0 0 splits := by
      simp only [Option.some.injEq] at h; exact h.symm
    have hsne : splits ≠ [] := fun hh => h6 (by rw [hh]; rfl)
    have hw : wrap64 ((owedAmounts out).sum) = amount := by
      have := percentageSplits_sum expenseID amount splits.length 0 0 splits hsne (by omega)
      rw [zero_add, wrap64_of_isInt64 hi] at this
      rw [hout]; exact this
    refine ⟨hw, fun hint => by rw [← hw, wrap64_of_isInt64 hint],
      fun he => absurd he hneq, ?_, hex⟩
    intro _ hnn hs100 hb
    have := percentageSplits_exact expenseID amount splits.length hpos hb 0 0 splits hsne
      (by omega) hnn (le_refl _) (by rw [hs100]; omega)
    rw [zero_add] at this
    rw [hout]; exact this
  rw [if_neg h5] at h
  by_cases h8 : splitType = "exact"
  · rw [if_pos h8] at h
    by_cases h6 : splits.length = 0
    · simp [h6] at h
    rw [if_neg h6] at h
    by_cases h7 : totalOf splitEntry.Amount splits ≠ amount
    · simp [h7] at h
    rw [if_neg h7] at h
    have hout : out = splits.map (fun s =>
        { ExpenseID := expenseID, UserID := s.UserID, AmountOwed := s.Amount }) := by
      simp only [Option.some.injEq] at h; exact h.symm
    have hw : wrap64 ((owedAmounts out).sum) = amount := by
      have h7' : totalOf splitEntry.Amount splits = amount := not_not.mp h7
      rw [totalOf_eq] at h7'
      rw [hout, ← h7']
      unfold owedAmounts
      rw [List.map_map]
      rfl
    exact ⟨hw, fun hint => by rw [← hw, wrap64_of_isInt64 hint],
      fun he => absurd he hneq, fun hp => absurd hp h5, hex⟩
  rw [if_neg h8] at h
  simp at h

/-- Instance of `AddExpense_sum`: 10000 paise split equally among three members
gives 3334, 3333, 3333, and 100 split by the percentages 33/33/34 gives
33, 33, 34; both sum exactly to the amount. -/
theorem AddExpense_sum_witness :
    isInt64 10000 ∧
    AddExpense 7 10000 "equal" [1, 2, 3] [] = some [⟨7, 1, 3334⟩, ⟨7, 2, 3333⟩, ⟨7, 3, 3333⟩] ∧
    (owedAmounts [⟨7, 1, 3334⟩, ⟨7, 2, 3333⟩, ⟨7, 3, 3333⟩]).sum = 10000 ∧
    AddExpense 7 100 "percentage" [1, 2, 3] [⟨1, 33, 0⟩, ⟨2, 33, 0⟩, ⟨3, 34, 0⟩]
      = some [⟨7, 1, 33⟩, ⟨7, 2, 33⟩, ⟨7, 3, 34⟩] ∧
    (owedAmounts [⟨7, 1, 33⟩, ⟨7, 2, 33⟩, ⟨7, 3, 34⟩]).sum = 100 :=
  ⟨by decide, by decide,
    (AddExpense_sum 7 10000 "equal" [1, 2, 3] [] [⟨7, 1, 3334⟩, ⟨7, 2, 3333⟩, ⟨7, 3, 3333⟩]
      (by decide) (by decide)).2.2.1 rfl,
    by decide,
    (AddExpense_sum 7 100 "percentage" [1, 2, 3] [⟨1, 33, 0⟩, ⟨2, 33, 0⟩, ⟨3, 34, 0⟩]
      [⟨7, 1, 33⟩, ⟨7, 2, 33⟩, ⟨7, 3, 34⟩] (by decide) (by decide)).2.2.2.1 rfl
      (by decide) (by decide) (by decide)⟩

/-! ## Order of the transactions -/

theorem nextDebtors_ids (d c : balance) (ds : List balance) :
    (nextDebtors d c ds).map balance.UserID = ds.map balance.UserID ∨
    (nextDebtors d c ds).map balance.UserID = (d :: ds).map balance.UserID := by
  unfold nextDebtors
  split
  · exact Or.inl rfl
  · exact Or.inr rfl

theorem nextCreditors_ids (d c : balance) (cs : List balance) :
    (nextCreditors d c cs).map balance.UserID = cs.map balance.UserID ∨
    (nextCreditors d c cs).map balance.UserID = (c :: cs).map balance.UserID := by
  unfold nextCreditors
  split
  · exact Or.inl rfl
  · exact Or.inr rfl

/-- Payers occur in the order of the debtors slice. -/
theorem settleLoop_from_order (g : Nat → Int) (fuel : Nat) (ds cs : List balance)
    (h : ((ds.map balance.UserID).map g).Pairwise (· ≥ ·)) :
    ((settleLoop fuel ds cs).map (fun t => g t.From)).Pairwise (· ≥ ·) := by
  induction fuel generalizing ds cs with
  | zero => simp [settleLoop]
  | succ n ih =>
    cases ds with
    | nil => simp [settleLoop_nil_left]
    | cons d ds =>
      cases cs with
      | nil => simp [settleLoop_nil_right]
      | cons c cs =>
        rw [settleLoop_cons, List.map_cons, List.pairwise_cons]
        have hcons := h
        simp only [List.map_cons, List.pairwise_cons] at hcons
        have hnext : (((nextDebtors d c ds).map balance.UserID).map g).Pairwise (· ≥ ·) := by
          rcases nextDebtors_ids d c ds with e | e
          · rw [e]; exact hcons.2
          · rw [e]; exact h
        refine ⟨?_, ih _ _ hnext⟩
        intro x hx
        obtain ⟨t, ht, rfl⟩ := List.mem_map.mp hx
        have hmem := (settleLoop_mem _ _ _ t ht).1
        have hin : t.From ∈ (d :: ds).map balance.UserID := by
          rcases nextDebtors_ids d c ds with e | e
          · rw [e] at hmem; exact List.mem_cons_of_mem _ hmem
          · rw [e] at hmem; exact hmem
        simp only [List.map_cons, List.mem_cons] at hin
        rcases hin with hin | hin
        · rw [hin]
        · exact hcons.1 _ (List.mem_map.mpr ⟨_, hin, rfl⟩)

/-- Receivers occur in the order of the creditors slice. -/
theorem settleLoop_to_order (g : Nat → Int) (fuel : Nat) (ds cs : List balance)
    (h : ((cs.map balance.UserID).map g).Pairwise (· ≥ ·)) :
    ((settleLoop fuel ds cs).map (fun t => g t.To)).Pairwise (· ≥ ·) := by
  induction fuel generalizing ds cs with
  | zero => simp [settleLoop]
  | succ n ih =>
    cases ds with
    | nil => simp [settleLoop_nil_left]
    | cons d ds =>
      cases cs with
      | nil => simp [settleLoop_nil_right]
      | cons c cs =>
        rw [settleLoop_cons, List.map_cons, List.pairwise_cons]
        have hcons := h
        simp only [List.map_cons, List.pairwise_cons] at hcons
        have hnext : (((nextCreditors d c cs).map balance.UserID).map g).Pairwise (· ≥ ·) := by
          rcases nextCreditors_ids d c cs with e | e
          · rw [e]; exact hcons.2
          · rw [e]; exact h
        refine ⟨?_, ih _ _ hnext⟩
        intro x hx
        obtain ⟨t, ht, rfl⟩ := List.mem_map.mp hx
        have hmem := (settleLoop_mem _ _ _ t ht).2
        have hin : t.To ∈ (c :: cs).map balance.UserID := by
          rcases nextCreditors_ids d c cs with e | e
          · rw [e] at hmem; exact List.mem_cons_of_mem _ hmem
          · rw [e] at hmem; exact hmem
        simp only [List.map_cons, List.mem_cons] at hin
        rcases hin with hin | hin
        · rw [hin]
        · exact hcons.1 _ (List.mem_map.mpr ⟨_, hin, rfl⟩)

/-- The stored credit of a creditor is its input balance. -/
theorem creditor_amount (m : BalanceMap) (hk : DistinctKeys m) {b : balance}
    (hb : b ∈ creditorsOf m) : b.Amount = mapGet m b.UserID := by
  obtain ⟨h1, _⟩ := mem_creditorsOf hb
  exact (mapGet_of_mem hk h1).symm

/-- The stored debt of a debtor is its input absolute debt, when no balance is
`math.MinInt64`. -/
theorem debtor_amount (m : BalanceMap) (hk : DistinctKeys m) (hv : Int64Values m)
    (hmin : ∀ e ∈ m, e.2 ≠ minInt64) {b : balance}
    (hb : b ∈ debtorsOf m) : b.Amount = -mapGet m b.UserID := by
  obtain ⟨v, h1, _, h3⟩ := mem_debtorsOf hb
  rw [h3, mapGet_of_mem hk h1, wrap64_neg (hv _ h1) (hmin _ h1)]

theorem sorted_ids_order (g : Nat → Int) (l : List balance)
    (hs : l.Pairwise (fun a b => ¬ less b a)) (hg : ∀ b ∈ l, b.Amount = g b.UserID) :
    ((l.map balance.UserID).map g).Pairwise (· ≥ ·) := by
  rw [List.map_map, List.pairwise_map]
  refine List.Pairwise.imp_of_mem ?_ hs
  intro a b ha hb hab
  simp only [Function.comp]
  rw [← hg a ha, ← hg b hb]
  unfold less at hab
  omega

/-- When no balance is `math.MinInt64`: payers occur in non-increasing order of
input absolute debt, receivers in non-increasing order of input credit, and the
first transaction goes from a largest debtor to a largest creditor with amount
the smaller of that debt and that credit; there is a first transaction as soon
as there are a debtor and a creditor. -/
theorem MinimizeTransactions_largest_first (sortSlice : List balance → List balance)
    (hs : SortsByLess sortSlice) (m : BalanceMap) (hk : DistinctKeys m)
    (hv : Int64Values m) (hmin : ∀ e ∈ m, e.2 ≠ minInt64) :
    (payerDebts m (MinimizeTransactions sortSlice m)).Pairwise (· ≥ ·) ∧
    (receiverCredits m (MinimizeTransactions sortSlice m)).Pairwise (· ≥ ·) ∧
    (∀ t rest, MinimizeTransactions sortSlice m = t :: rest →
      (∀ e ∈ m, -e.2 ≤ -mapGet m t.From ∧ e.2 ≤ mapGet m t.To) ∧
      t.Amount = min (-mapGet m t.From) (mapGet m t.To)) ∧
    ((∃ e ∈ m, e.2 < 0) → (∃ e ∈ m, 0 < e.2) → MinimizeTransactions sortSlice m ≠ []) := by
  have hdam : ∀ b ∈ sortSlice (debtorsOf m), b.Amount = -mapGet m b.UserID :=
    fun b hb => debtor_amount m hk hv hmin ((hs _).1.subset hb)
  have hcam : ∀ b ∈ sortSlice (creditorsOf m), b.Amount = mapGet m b.UserID :=
    fun b hb => creditor_amount m hk ((hs _).1.subset hb)
  have hpd := PositiveAmounts_perm (hs _).1 (PositiveAmounts_debtorsOf m hv hmin)
  have hpc := PositiveAmounts_perm (hs _).1 (PositiveAmounts_creditorsOf m hv)
  unfold payerDebts receiverCredits MinimizeTransactions
  rw [collect_eq]
  simp only []
  refine ⟨settleLoop_from_order (fun k => -mapGet m k) _ _ _
      (sorted_ids_order _ _ (hs _).2 hdam),
    settleLoop_to_order (fun k => mapGet m k) _ _ _
      (sorted_ids_order _ _ (hs _).2 hcam), ?_, ?_⟩
  · intro t rest heq
    generalize hds : sortSlice (debtorsOf m) = ds at heq hdam hpd
    generalize hcs : sortSlice (creditorsOf m) = cs at heq hcam hpc
    have hsd : ds.Pairwise (fun a b => ¬ less b a) := hds ▸ (hs _).2
    have hsc : cs.Pairwise (fun a b => ¬ less b a) := hcs ▸ (hs _).2
    cases ds with
    | nil => rw [settleLoop_nil_left] at heq; cases heq
    | cons d ds =>
      cases cs with
      | nil => rw [settleLoop_nil_right] at heq; cases heq
      | cons c cs =>
        simp only [List.length_cons] at heq
        rw [show ds.length + 1 + (cs.length + 1) = (ds.length + cs.length + 1) + 1 by omega,
          settleLoop_cons] at heq
        injection heq with ht _
        subst ht
        simp only []
        have hd := hdam d (List.mem_cons_self _ _)
        have hc := hcam c (List.mem_cons_self _ _)
        have hdpos := (PositiveAmounts_cons.mp hpd).1
        have hcpos := (PositiveAmounts_cons.mp hpc).1
        rw [List.pairwise_cons] at hsd hsc
        refine ⟨?_, by rw [transferOf_eq_min, hd, hc]⟩
        intro e he
        constructor
        · by_cases hneg : e.2 < 0
          · have hmem : (⟨e.1, wrap64 (-e.2)⟩ : balance) ∈ debtorsOf m := by
              unfold debtorsOf
              exact List.mem_map.mpr ⟨e, List.mem_filter.mpr ⟨he, by simpa using hneg⟩, rfl⟩
            have hin : (⟨e.1, wrap64 (-e.2)⟩ : balance) ∈ d :: ds :=
              hds ▸ (hs _).1.symm.subset hmem
            have hw := wrap64_neg (hv e he) (hmin e he)
            rcases List.mem_cons.mp hin with heq | hin
            · rw [← hd, ← heq]; simp only []; rw [hw]
            · have := hsd.1 _ hin
              unfold less at this
              simp only [] at this
              rw [hw] at this
              omega
          · omega
        · by_cases hposv : 0 < e.2
          · have hmem : (⟨e.1, e.2⟩ : balance) ∈ creditorsOf m := by
              unfold creditorsOf
              exact List.mem_map.mpr ⟨e, List.mem_filter.mpr ⟨he, by simpa using hposv⟩, rfl⟩
            have hin : (⟨e.1, e.2⟩ : balance) ∈ c :: cs :=
              hcs ▸ (hs _).1.symm.subset hmem
            rcases List.mem_cons.mp hin with heq | hin
            · rw [← hc, ← heq]
            · have := hsc.1 _ hin
              unfold less at this
              simp only [] at this
              omega
          · omega
  · rintro ⟨e, he, hneg⟩ ⟨e', he', hposv⟩
    have hmemd : (⟨e.1, wrap64 (-e.2)⟩ : balance) ∈ sortSlice (debtorsOf m) := by
      apply (hs _).1.symm.subset
      unfold debtorsOf
      exact List.mem_map.mpr ⟨e, List.mem_filter.mpr ⟨he, by simpa using hneg⟩, rfl⟩
    have hmemc : (⟨e'.1, e'.2⟩ : balance) ∈ sortSlice (creditorsOf m) := by
      apply (hs _).1.symm.subset
      unfold creditorsOf
      exact List.mem_map.mpr ⟨e', List.mem_filter.mpr ⟨he', by simpa using hposv⟩, rfl⟩
    generalize sortSlice (debtorsOf m) = ds at hmemd
    generalize sortSlice (creditorsOf m) = cs at hmemc
    cases ds with
    | nil => simp at hmemd
    | cons d ds =>
      cases cs with
      | nil => simp at hmemc
      | cons c cs =>
        simp only [List.length_cons]
        rw [show ds.length + 1 + (cs.length + 1) = (ds.length + cs.length + 1) + 1 by omega,
          settleLoop_cons]
        exact List.cons_ne_nil _ _

/-- The mapping `{1: 500, 2: -200, 3: -300}` gives exactly `[3 -> 1 (300),
2 -> 1 (200)]`, for every enumeration order and every behaviour of the sort. -/
theorem MinimizeTransactions_example (sortSlice : List balance → List balance)
    (hs : SortsByLess sortSlice) (m : BalanceMap)
    (hm : m.Perm [(1, 500), (2, -200), (3, -300)]) :
    MinimizeTransactions sortSlice m = [⟨3, 1, 300⟩, ⟨2, 1, 200⟩] := by
  rw [MinimizeTransactions_order_irrelevant sortSlice insertionSortSlice hs
    insertionSortSlice_sorts m [(1, 500), (2, -200), (3, -300)] hm
    (fun e he => (by decide : Int64Values [(1, 500), (2, -200), (3, -300)]) e (hm.subset he))
    (fun e he e' he' => (by decide : DistinctAmounts [(1, 500), (2, -200), (3, -300)]) e
      (hm.subset he) e' (hm.subset he'))]
  decide

/-! ## A ledger that produces a balance of `math.MinInt64` -/

/-- The mapping `unsettledInput` is what `computeNetBalances` builds for a
consistent ledger of two expenses, paid by participants 2 and 3 and owed in full
by participant 1, whose splits `AddExpense` accepts as exact splits. -/
theorem unsettledInput_reachable :
    ConsistentLedger [⟨1, 1, 2, 2 ^ 62 + 1⟩, ⟨2, 1, 3, 2 ^ 62 - 1⟩]
      [⟨1, 1, 2 ^ 62 + 1⟩, ⟨2, 1, 2 ^ 62 - 1⟩] ∧
    AddExpense 1 (2 ^ 62 + 1) "exact" [1, 2, 3] [⟨1, 0, 2 ^ 62 + 1⟩]
      = some [⟨1, 1, 2 ^ 62 + 1⟩] ∧
    AddExpense 2 (2 ^ 62 - 1) "exact" [1, 2, 3] [⟨1, 0, 2 ^ 62 - 1⟩]
      = some [⟨2, 1, 2 ^ 62 - 1⟩] ∧
    (computeNetBalances [⟨1, 1, 2, 2 ^ 62 + 1⟩, ⟨2, 1, 3, 2 ^ 62 - 1⟩]
      [⟨1, 1, 2 ^ 62 + 1⟩, ⟨2, 1, 2 ^ 62 - 1⟩]).Perm unsettledInput := by
  refine ⟨by decide, by decide, by decide, by decide⟩

/-! ## Instances of the results for mappings without `math.MinInt64` -/

/-- Instance of `MinimizeTransactions_settles` on `{1: 200, 2: -100, 3: -100}`. -/
theorem MinimizeTransactions_settles_witness :
    sumValues [(1, 200), (2, -100), (3, -100)] = 0 ∧
    Settles [(1, 200), (2, -100), (3, -100)]
      (MinimizeTransactions insertionSortSlice [(1, 200), (2, -100), (3, -100)]) :=
  ⟨by decide, MinimizeTransactions_settles insertionSortSlice insertionSortSlice_sorts
    [(1, 200), (2, -100), (3, -100)] (by decide) (by decide) (by decide) (by decide)⟩

/-- Instance of `MinimizeTransactions_amount_pos` on the unbalanced mapping
`{1: 200, 2: -100, 3: -150}`. -/
theorem MinimizeTransactions_amount_pos_witness :
    sumValues [(1, 200), (2, -100), (3, -150)] ≠ 0 ∧
    ∀ t ∈ MinimizeTransactions insertionSortSlice [(1, 200), (2, -100), (3, -150)],
      0 < t.Amount :=
  ⟨by decide, MinimizeTransactions_amount_pos insertionSortSlice insertionSortSlice_sorts
    [(1, 200), (2, -100), (3, -150)] (by decide) (by decide)⟩

/-- Instance of `MinimizeTransactions_largest_first` on `{1: 500, 2: -200, 3: -300}`:
payer debts 300, 200 and receiver credits 500, 500. -/
theorem MinimizeTransactions_largest_first_witness :
    payerDebts [(1, 500), (2, -200), (3, -300)]
      (MinimizeTransactions insertionSortSlice [(1, 500), (2, -200), (3, -300)]) = [300, 200] ∧
    (payerDebts [(1, 500), (2, -200), (3, -300)]
      (MinimizeTransactions insertionSortSlice [(1, 500), (2, -200), (3, -300)])).Pairwise
        (· ≥ ·) :=
  ⟨by decide, (MinimizeTransactions_largest_first insertionSortSlice insertionSortSlice_sorts
    [(1, 500), (2, -200), (3, -300)] (by decide) (by decide) (by decide)).1⟩

/-! ## Mappings that are already settled -/

theorem creditorsOf_of_all_zero (m : BalanceMap) (h : ∀ e ∈ m, e.2 = 0) :
    creditorsOf m = [] := by
  unfold creditorsOf
  rw [List.map_eq_nil_iff, List.filter_eq_nil_iff]
  intro e he
  have := h e he
  simp [this]

theorem debtorsOf_of_all_zero (m : BalanceMap) (h : ∀ e ∈ m, e.2 = 0) :
    debtorsOf m = [] := by
  unfold debtorsOf
  rw [List.map_eq_nil_iff, List.filter_eq_nil_iff]
  intro e he
  have := h e he
  simp [this]

/-- C11. For every balance mapping in which every value is 0, the empty mapping
included, `MinimizeTransactions` returns an empty transaction list, whatever
the enumeration order of the map and the behaviour of the sort. -/
theorem MinimizeTransactions_all_zero (sortSlice : List balance → List balance)
    (hs : SortsByLess sortSlice) (balances : BalanceMap)
    (h : ∀ e ∈ balances, e.2 = 0) :
    MinimizeTransactions sortSlice balances = [] ∧
    MinimizeTransactions sortSlice [] = [] := by
  have key : ∀ m : BalanceMap, (∀ e ∈ m, e.2 = 0) → MinimizeTransactions sortSlice m = [] := by
    intro m hm
    unfold MinimizeTransactions
    rw [collect_eq]
    simp only [creditorsOf_of_all_zero m hm, debtorsOf_of_all_zero m hm]
    rw [List.perm_nil.mp (hs []).1]
    rfl
  exact ⟨key balances h, key [] (fun e he => by simp at he)⟩

/-- Instance of `MinimizeTransactions_all_zero` on `{1: 0, 2: 0, 3: 0}`. -/
theorem MinimizeTransactions_all_zero_witness :
    (∀ e ∈ ([(1, 0), (2, 0), (3, 0)] : BalanceMap), e.2 = 0) ∧
    MinimizeTransactions insertionSortSlice [(1, 0), (2, 0), (3, 0)] = [] :=
  ⟨by decide, (MinimizeTransactions_all_zero insertionSortSlice insertionSortSlice_sorts
    [(1, 0), (2, 0), (3, 0)] (by decide)).1⟩

/-! ## No balance is moved past zero -/

theorem amountOf_nonneg (k : Nat) (l : List balance) (h : PositiveAmounts l) :
    0 ≤ amountOf k l := by
  induction l with
  | nil => simp [amountOf]
  | cons b l ih =>
    rw [PositiveAmounts_cons] at h
    rw [amountOf_cons]
    have := ih h.2
    split <;> omega

theorem paidBy_nonneg (k : Nat) (txs : List Transaction) (h : ∀ t ∈ txs, 0 < t.Amount) :
    0 ≤ paidBy k txs := by
  induction txs with
  | nil => simp [paidBy]
  | cons t txs ih =>
    rw [paidBy_cons]
    have h1 := h t (List.mem_cons_self _ _)
    have h2 := ih (fun t ht => h t (List.mem_cons_of_mem _ ht))
    split <;> omega

theorem receivedBy_nonneg (k : Nat) (txs : List Transaction) (h : ∀ t ∈ txs, 0 < t.Amount) :
    0 ≤ receivedBy k txs := by
  induction txs with
  | nil => simp [receivedBy]
  | cons t txs ih =>
    rw [receivedBy_cons]
    have h1 := h t (List.mem_cons_self _ _)
    have h2 := ih (fun t ht => h t (List.mem_cons_of_mem _ ht))
    split <;> omega

/-- No debtor pays more than its debt, balanced or not. -/
theorem settleLoop_paidBy_le (fuel : Nat) (ds cs : List balance)
    (hd : PositiveAmounts ds) (hc : PositiveAmounts cs) (k : Nat) :
    paidBy k (settleLoop fuel ds cs) ≤ amountOf k ds := by
  induction fuel generalizing ds cs with
  | zero => exact amountOf_nonneg k ds hd
  | succ n ih =>
    cases ds with
    | nil => rw [settleLoop_nil_left]; exact le_refl _
    | cons d ds =>
      cases cs with
      | nil => rw [settleLoop_nil_right]; exact amountOf_nonneg k _ hd
      | cons c cs =>
        have hd1 := (PositiveAmounts_cons.mp hd).1
        have hc1 := (PositiveAmounts_cons.mp hc).1
        have hnd := PositiveAmounts_nextDebtors d c ds hd hc1
        have hnc := PositiveAmounts_nextCreditors d c cs hd1 hc
        have key := ih (nextDebtors d c ds) (nextCreditors d c cs) hnd hnc
        rw [settleLoop_cons, paidBy_cons, amountOf_cons]
        simp only [transferOf_eq_min]
        rw [nextDebtors_pos d c ds hd1 hc1] at key ⊢
        by_cases h1 : d.Amount ≤ c.Amount
        · rw [if_pos h1] at key ⊢
          rw [min_eq_left h1]
          omega
        · rw [if_neg h1] at key ⊢
          rw [amountOf_cons] at key
          simp only [] at key
          rw [min_eq_right (by omega)]
          by_cases hk : d.UserID = k
          · simp only [hk, if_true] at key ⊢; omega
          · simp only [hk, if_false] at key ⊢; omega

/-- No creditor receives more than its credit, balanced or not. -/
theorem settleLoop_receivedBy_le (fuel : Nat) (ds cs : List balance)
    (hd : PositiveAmounts ds) (hc : PositiveAmounts cs) (k : Nat) :
    receivedBy k (settleLoop fuel ds cs) ≤ amountOf k cs := by
  induction fuel generalizing ds cs with
  | zero => exact amountOf_nonneg k cs hc
  | succ n ih =>
    cases ds with
    | nil => rw [settleLoop_nil_left]; exact amountOf_nonneg k _ hc
    | cons d ds =>
      cases cs with
      | nil => rw [settleLoop_nil_right]; exact le_refl _
      | cons c cs =>
        have hd1 := (PositiveAmounts_cons.mp hd).1
        have hc1 := (PositiveAmounts_cons.mp hc).1
        have hnd := PositiveAmounts_nextDebtors d c ds hd hc1
        have hnc := PositiveAmounts_nextCreditors d c cs hd1 hc
        have key := ih (nextDebtors d c ds) (nextCreditors d c cs) hnd hnc
        rw [settleLoop_cons, receivedBy_cons, amountOf_cons]
        simp only [transferOf_eq_min]
        rw [nextCreditors_pos d c cs hd1 hc1] at key ⊢
        by_cases h1 : c.Amount ≤ d.Amount
        · rw [if_pos h1] at key ⊢
          rw [min_eq_right h1]
          omega
        · rw [if_neg h1] at key ⊢
          rw [amountOf_cons] at key
          simp only [] at key
          rw [min_eq_left (by omega)]
          by_cases hk : c.UserID = k
          · simp only [hk, if_true] at key ⊢; omega
          · simp only [hk, if_false] at key ⊢; omega

theorem mapGet_ne_minInt64 (m : BalanceMap) (hk : DistinctKeys m)
    (hmin : ∀ e ∈ m, e.2 ≠ minInt64) (k : Nat) : mapGet m k ≠ minInt64 := by
  by_cases hmem : k ∈ m.map Prod.fst
  · obtain ⟨e, he, hfst⟩ := List.mem_map.mp hmem
    have : mapGet m k = e.2 := mapGet_of_mem hk (by rw [← hfst]; exact he)
    rw [this]; exact hmin e he
  · rw [mapGet_of_not_mem m k hmem]; decide

theorem amountOf_debtorsOf_eq (m : BalanceMap) (hk : DistinctKeys m) (hv : Int64Values m)
    (hmin : ∀ e ∈ m, e.2 ≠ minInt64) (k : Nat) :
    amountOf k (debtorsOf m) = debtOf m k := by
  rw [amountOf_debtorsOf m hk]
  unfold debtOf
  split
  · exact wrap64_neg (isInt64_mapGet m hv k) (mapGet_ne_minInt64 m hk hmin k)
  · rfl

theorem amountOf_creditorsOf_eq (m : BalanceMap) (hk : DistinctKeys m) (k : Nat) :
    amountOf k (creditorsOf m) = creditOf m k := by
  rw [amountOf_creditorsOf m hk]; rfl

/-- The balance of `k` in the `int64` copy after applying transactions. -/
theorem mapGet_applyTransactions_eq (m : BalanceMap) (hv : Int64Values m)
    (txs : List Transaction) (k : Nat) :
    mapGet (applyTransactions m txs) k
      = wrap64 (mapGet m k + paidBy k txs - receivedBy k txs) := by
  rw [← mapGet_applyTransactions,
    wrap64_of_isInt64 (isInt64_mapGet _ (Int64Values_applyTransactions txs m hv) k)]

/-- When no balance is `math.MinInt64`, balanced or not: every debtor pays
between 0 and its debt, every creditor receives between 0 and its credit, the
balance of every participant after applying the transactions lies between its
input balance and 0, and either every debtor or every creditor ends at
exactly 0. -/
theorem MinimizeTransactions_no_overshoot (sortSlice : List balance → List balance)
    (hs : SortsByLess sortSlice) (m : BalanceMap) (hk : DistinctKeys m)
    (hv : Int64Values m) (hmin : ∀ e ∈ m, e.2 ≠ minInt64) :
    (∀ k, 0 ≤ paidBy k (MinimizeTransactions sortSlice m) ∧
      paidBy k (MinimizeTransactions sortSlice m) ≤ debtOf m k) ∧
    (∀ k, 0 ≤ receivedBy k (MinimizeTransactions sortSlice m) ∧
      receivedBy k (MinimizeTransactions sortSlice m) ≤ creditOf m k) ∧
    (∀ e ∈ m,
      (e.2 < 0 → e.2 ≤ mapGet (applyTransactions m (MinimizeTransactions sortSlice m)) e.1 ∧
        mapGet (applyTransactions m (MinimizeTransactions sortSlice m)) e.1 ≤ 0) ∧
      (0 < e.2 → 0 ≤ mapGet (applyTransactions m (MinimizeTransactions sortSlice m)) e.1 ∧
        mapGet (applyTransactions m (MinimizeTransactions sortSlice m)) e.1 ≤ e.2) ∧
      (e.2 = 0 → mapGet (applyTransactions m (MinimizeTransactions sortSlice m)) e.1 = 0)) ∧
    ((∀ e ∈ m, e.2 < 0 →
        mapGet (applyTransactions m (MinimizeTransactions sortSlice m)) e.1 = 0) ∨
      (∀ e ∈ m, 0 < e.2 →
        mapGet (applyTransactions m (MinimizeTransactions sortSlice m)) e.1 = 0)) := by
  have hpd := PositiveAmounts_perm (hs _).1 (PositiveAmounts_debtorsOf m hv hmin)
  have hpc := PositiveAmounts_perm (hs _).1 (PositiveAmounts_creditorsOf m hv)
  have hpos := MinimizeTransactions_amount_pos sortSlice hs m hv hmin
  have hdebt : ∀ k, amountOf k (sortSlice (debtorsOf m)) = debtOf m k := fun k => by
    rw [amountOf_perm k (hs _).1, amountOf_debtorsOf_eq m hk hv hmin]
  have hcred : ∀ k, amountOf k (sortSlice (creditorsOf m)) = creditOf m k := fun k => by
    rw [amountOf_perm k (hs _).1, amountOf_creditorsOf_eq m hk]
  have hunf : MinimizeTransactions sortSlice m
      = settleLoop ((sortSlice (debtorsOf m)).length + (sortSlice (creditorsOf m)).length)
          (sortSlice (debtorsOf m)) (sortSlice (creditorsOf m)) := by
    unfold MinimizeTransactions; rw [collect_eq]
  have hp : ∀ k, 0 ≤ paidBy k (MinimizeTransactions sortSlice m) ∧
      paidBy k (MinimizeTransactions sortSlice m) ≤ debtOf m k := fun k =>
    ⟨paidBy_nonneg k _ hpos, by
      rw [← hdebt k, hunf]; exact settleLoop_paidBy_le _ _ _ hpd hpc k⟩
  have hr : ∀ k, 0 ≤ receivedBy k (MinimizeTransactions sortSlice m) ∧
      receivedBy k (MinimizeTransactions sortSlice m) ≤ creditOf m k := fun k =>
    ⟨receivedBy_nonneg k _ hpos, by
      rw [← hcred k, hunf]; exact settleLoop_receivedBy_le _ _ _ hpd hpc k⟩
  have hget : ∀ e ∈ m, mapGet m e.1 = e.2 := fun e he =>
    mapGet_of_mem hk (by simpa using he)
  refine ⟨hp, hr, ?_, ?_⟩
  · intro e he
    have h1 := hp e.1
    have h2 := hr e.1
    have hi := hv e he
    unfold debtOf at h1
    unfold creditOf at h2
    unfold isInt64 at hi
    rw [hget e he] at h1 h2
    rw [mapGet_applyTransactions_eq m hv, hget e he]
    refine ⟨fun hneg => ?_, fun hposv => ?_, fun hz => ?_⟩
    · rw [if_pos hneg] at h1
      rw [if_neg (by omega)] at h2
      rw [wrap64_of_isInt64 (by unfold isInt64; omega)]
      omega
    · rw [if_neg (by omega)] at h1
      rw [if_pos hposv] at h2
      rw [wrap64_of_isInt64 (by unfold isInt64; omega)]
      omega
    · rw [if_neg (by omega)] at h1
      rw [if_neg (by omega)] at h2
      rw [wrap64_of_isInt64 (by unfold isInt64; omega)]
      omega
  · rcases le_total (totalAmount (sortSlice (debtorsOf m)))
      (totalAmount (sortSlice (creditorsOf m))) with hle | hle
    · left
      intro e he hneg
      have h2 := hr e.1
      have hpaid : paidBy e.1 (MinimizeTransactions sortSlice m) = debtOf m e.1 := by
        rw [← hdebt e.1, hunf]
        exact settleLoop_paidBy _ _ _ (le_refl _) hpd hpc hle e.1
      unfold creditOf at h2
      unfold debtOf at hpaid
      rw [hget e he] at h2 hpaid
      rw [if_neg (by omega)] at h2
      rw [if_pos hneg] at hpaid
      rw [mapGet_applyTransactions_eq m hv, hget e he, hpaid]
      have : e.2 + -e.2 - receivedBy e.1 (MinimizeTransactions sortSlice m) = 0 := by omega
      rw [this]; rfl
    · right
      intro e he hposv
      have h1 := hp e.1
      have hrecv : receivedBy e.1 (MinimizeTransactions sortSlice m) = creditOf m e.1 := by
        rw [← hcred e.1, hunf]
        exact settleLoop_receivedBy _ _ _ (le_refl _) hpd hpc hle e.1
      unfold debtOf at h1
      unfold creditOf at hrecv
      rw [hget e he] at h1 hrecv
      rw [if_neg (by omega)] at h1
      rw [if_pos hposv] at hrecv
      rw [mapGet_applyTransactions_eq m hv, hget e he, hrecv]
      have : e.2 + paidBy e.1 (MinimizeTransactions sortSlice m) - e.2 = 0 := by omega
      rw [this]; rfl

/-- Instance of `MinimizeTransactions_no_overshoot` on the unbalanced mapping
`{1: 200, 2: -100, 3: -150}`: debtor 3 pays 150, debtor 2 pays 50 of its 100,
creditor 1 receives its 200 and ends at 0. -/
theorem MinimizeTransactions_no_overshoot_witness :
    sumValues [(1, 200), (2, -100), (3, -150)] ≠ 0 ∧
    applyTransactions [(1, 200), (2, -100), (3, -150)]
      (MinimizeTransactions insertionSortSlice [(1, 200), (2, -100), (3, -150)])
      = [(1, 0), (2, -50), (3, 0)] ∧
    (∀ k, 0 ≤ paidBy k (MinimizeTransactions insertionSortSlice [(1, 200), (2, -100), (3, -150)])
      ∧ paidBy k (MinimizeTransactions insertionSortSlice [(1, 200), (2, -100), (3, -150)])
        ≤ debtOf [(1, 200), (2, -100), (3, -150)] k) :=
  ⟨by decide, by decide,
    (MinimizeTransactions_no_overshoot insertionSortSlice insertionSortSlice_sorts
      [(1, 200), (2, -100), (3, -150)] (by decide) (by decide) (by decide)).1⟩

/-- C12 (failing input). On `{1: -2^63, 2: 5}` the debt of participant 1 is
stored as `-2^63` (its negation overflows) and the only transaction is `1 -> 2`
with amount `-2^63`: the debtor pays a negative amount, and applying the
transaction to an `int64` copy moves creditor 2 from 5 past zero to `5 - 2^63`;
in exact arithmetic participant 1 ends at `-2^64` and participant 2 at
`5 + 2^63`, so neither the debtors nor the creditors are at zero.  This holds
whatever the enumeration order of the map and the behaviour of the sort. -/
theorem MinimizeTransactions_overshoot (sortSlice : List balance → List balance)
    (hs : SortsByLess sortSlice) (m : BalanceMap) (hm : m.Perm overshootInput) :
    MinimizeTransactions sortSlice m = [⟨1, 2, minInt64⟩] ∧
    paidBy 1 (MinimizeTransactions sortSlice m) = -2 ^ 63 ∧
    applyTransactions overshootInput (MinimizeTransactions sortSlice m)
      = [(1, 0), (2, 5 - 2 ^ 63)] ∧
    mapGet overshootInput 2 = 5 ∧
    mapGet (applyTransactions overshootInput (MinimizeTransactions sortSlice m)) 2 < 0 ∧
    mapGet overshootInput 1 + paidBy 1 (MinimizeTransactions sortSlice m)
      - receivedBy 1 (MinimizeTransactions sortSlice m) = -2 ^ 64 ∧
    mapGet overshootInput 2 + paidBy 2 (MinimizeTransactions sortSlice m)
      - receivedBy 2 (MinimizeTransactions sortSlice m) = 5 + 2 ^ 63 := by
  have h : MinimizeTransactions sortSlice m = [⟨1, 2, minInt64⟩] := by
    rw [MinimizeTransactions_order_irrelevant sortSlice insertionSortSlice hs
      insertionSortSlice_sorts m overshootInput hm
      (fun e he => (by decide : Int64Values overshootInput) e (hm.subset he))
      (fun e he e' he' => (by decide : DistinctAmounts overshootInput) e (hm.subset he) e'
        (hm.subset he'))]
    decide
  rw [h]
  exact ⟨rfl, by decide, by decide, by decide, by decide, by decide, by decide⟩

/-- Instance of `MinimizeTransactions_overshoot` for insertion sort and the
enumeration order `1, 2`. -/
theorem MinimizeTransactions_overshoot_witness :
    SortsByLess insertionSortSlice ∧
    applyTransactions overshootInput (MinimizeTransactions insertionSortSlice overshootInput)
      = [(1, 0), (2, 5 - 2 ^ 63)] :=
  ⟨insertionSortSlice_sorts,
    (MinimizeTransactions_overshoot insertionSortSlice insertionSortSlice_sorts
      overshootInput (List.Perm.refl _)).2.2.1⟩

/-! ## Length of the result against any settlement -/

end Splitwise
